import Mathlib

/-
Verification of the folder synchronization tool (src/folder_sync.py).

The program is embedded shallowly:

* A directory tree (the part of the filesystem below one root) is a finite
  association list from relative paths (lists of name components) to entries.
  A file entry carries its byte content (`List Nat`) and a flag `readErr`
  meaning that opening the file for reading fails with an IOError
  (e.g. permissions were revoked).  The root itself is not a key; a replica
  root that may not exist yet is an `Option FS`.
* `Path.rglob("*")` yields every entry below the root, parents before their
  children, and the source tree is not mutated during a pass, so the
  propagation loop of `sync_directories` is a fold over the source list.
  The pruning loop iterates over the replica listing taken after propagation;
  CPython's pathlib globs each directory lazily (a directory's children are
  listed only when the iterator reaches it), so entries removed by an earlier
  `shutil.rmtree` of an ancestor are never yielded.  This is modelled by
  skipping a path that no longer exists in the current state.
* The MD5 digest is an abstract hash parameter `h : List Nat → List Nat`;
  every statement quantifies over it.  `stat().st_size` of a file is the
  length of its content; the size a directory inode reports is the
  parameter `dsz` (its value never matters in the branches reached below).
* Filesystem mutations and log lines are recorded in a trace of `Act`s;
  exceptions that escape `sync_directories` (uncaught IOErrors from
  `shutil.copy2` or `mkdir`) are the `Except` error channel.
-/

/-- A path relative to a tree root: the list of name components. -/
abbrev RPath := List String

/-- One entry of a directory tree: a directory, or a file with its byte
content and a flag telling whether reading it fails with an IOError. -/
inductive Entry where
  | dirE : Entry
  | fileE (content : List Nat) (readErr : Bool) : Entry
deriving DecidableEq

/-- A directory tree: association list from relative paths to entries.
Well-formedness (`WF`) is assumed, not enforced. -/
abbrev FS := List (RPath × Entry)

/-- Errors that escape `sync_directories`: an uncaught IOError from
`shutil.copy2` or from `Path.mkdir`. -/
inductive SyncError where
  | copyErr (p : RPath)
  | mkdirErr (p : RPath)
deriving DecidableEq

/-- The observable events of one pass: each filesystem mutation (with its
log line) and each digest computation (`ok := false` is the
"Error calculating MD5" log line of `calculate_md5`). -/
inductive Act where
  | createdRoot
  | createdDir (p : RPath)
  | copiedNew (p : RPath)
  | updated (p : RPath)
  | updatedSize (p : RPath)
  | hashedS (p : RPath) (ok : Bool)
  | hashedR (p : RPath) (ok : Bool)
  | deletedFile (p : RPath)
  | deletedDir (p : RPath)
deriving DecidableEq

/-- First binding of a path in a tree (the filesystem has at most one). -/
def fsFind : FS → RPath → Option Entry
  | [], _ => none
  | (q, e) :: rest, p => if q = p then some e else fsFind rest p

/-- The list of paths of a tree, in traversal order. -/
def fsKeys (fs : FS) : List RPath := fs.map Prod.fst

/-- `pathLe p q` holds when `p` is a leading segment of `q` (possibly all of
it): the entry at `q` lives at or below the entry at `p`. -/
def pathLe : RPath → RPath → Bool
  | [], _ => true
  | _ :: _, [] => false
  | a :: as, b :: bs => decide (a = b) && pathLe as bs

/-- Keep only the entries whose path satisfies `f`. -/
def fsFilterKeys (f : RPath → Bool) (fs : FS) : FS :=
  fs.filter (fun pe => f pe.1)

/-- `os.unlink`: remove the single entry at `p`. -/
def unlink (fs : FS) (p : RPath) : FS :=
  fsFilterKeys (fun q => !(decide (q = p))) fs

/-- `shutil.rmtree`: remove the entry at `p` and everything below it. -/
def rmtree (fs : FS) (p : RPath) : FS :=
  fsFilterKeys (fun q => !(pathLe p q)) fs

/-- Overwrite the binding at `p` or append a new one. -/
def fsInsert : FS → RPath → Entry → FS
  | [], p, e => [(p, e)]
  | (q, e0) :: rest, p, e =>
    if q = p then (p, e) :: rest else (q, e0) :: fsInsert rest p e

/-- All nonempty leading segments of `p`, shallowest first, `p` itself last. -/
def ancestorsOf (p : RPath) : List RPath :=
  (List.range p.length).map (fun i => p.take (i + 1))

/-- Is the entry at `p` an existing directory? -/
def isDirAt (fs : FS) (p : RPath) : Bool :=
  match fsFind fs p with
  | some .dirE => true
  | _ => false

/-- Create every missing directory of the given list in order; fail with the
uncaught `FileExistsError`/`NotADirectoryError` if one of them already
exists as a file. -/
def mkdirSteps : FS → List RPath → Except SyncError FS
  | fs, [] => .ok fs
  | fs, q :: qs =>
    match fsFind fs q with
    | none => mkdirSteps (fs ++ [(q, .dirE)]) qs
    | some .dirE => mkdirSteps fs qs
    | some (.fileE _ _) => .error (.mkdirErr q)

/-- `Path.mkdir(parents=True)` at `p`: create `p` and its missing ancestors. -/
def mkdirParents (fs : FS) (p : RPath) : Except SyncError FS :=
  mkdirSteps fs (ancestorsOf p)

/-- `stat().st_size` of an entry: content length of a file, the inode size
`dsz` for a directory. -/
def entrySize (dsz : Nat) : Entry → Nat
  | .dirE => dsz
  | .fileE c _ => c.length

/-- Does the parent directory of `p` exist (the root counts as existing)? -/
def parentIsDir (fs : FS) (p : RPath) : Bool :=
  match p.dropLast with
  | [] => true
  | q => isDirAt fs q

/-- `calculate_md5` (folder_sync.py lines 19-29): stream the file and return
its digest; any IOError (unreadable file, directory, missing path) is caught,
logged, and `None` is returned. -/
def calculate_md5 (h : List Nat → List Nat) (fs : FS) (p : RPath) :
    Option (List Nat) :=
  match fsFind fs p with
  | some (.fileE c false) => some (h c)
  | _ => none

/-- `shutil.copy2(src at p, dst at q)`: read the source file (raising if it
is unreadable or not a file), copy into `q` if `q` is an existing directory
(the destination is then `q/<basename>`), overwrite an existing destination
file, otherwise create the destination (raising if its parent is not an
existing directory).  Content and permission bits come from the source, so
the destination is readable afterwards. -/
def copy2 (src : FS) (p : RPath) (dst : FS) (q : RPath) : Except SyncError FS :=
  match fsFind src p with
  | some (.fileE c false) =>
    let q1 := match fsFind dst q with
      | some .dirE => q ++ [p.getLastD ""]
      | _ => q
    match fsFind dst q1 with
    | some .dirE => .error (.copyErr p)
    | some (.fileE _ _) => .ok (fsInsert dst q1 (.fileE c false))
    | none =>
      if parentIsDir dst q1 then .ok (fsInsert dst q1 (.fileE c false))
      else .error (.copyErr p)
  | _ => .error (.copyErr p)

/-- Body of the propagation loop of `sync_directories` (lines 43-67) for one
source item `(p, e)`: create a missing directory, copy a missing file,
otherwise compare sizes and, when the sizes agree, both digests. -/
def processItem (h : List Nat → List Nat) (dsz : Nat) (src fs : FS)
    (tr : List Act) (p : RPath) (e : Entry) :
    Except SyncError (FS × List Act) :=
  match e with
  | .dirE =>
    match fsFind fs p with
    | some _ => .ok (fs, tr)
    | none =>
      match mkdirParents fs p with
      | .error er => .error er
      | .ok fs1 => .ok (fs1, tr ++ [.createdDir p])
  | .fileE c _ =>
    match fsFind fs p with
    | none =>
      match copy2 src p fs p with
      | .error er => .error er
      | .ok fs1 => .ok (fs1, tr ++ [.copiedNew p])
    | some re =>
      if c.length = entrySize dsz re then
        if calculate_md5 h src p = calculate_md5 h fs p then
          .ok (fs, tr ++ [.hashedS p (calculate_md5 h src p).isSome,
            .hashedR p (calculate_md5 h fs p).isSome])
        else
          match copy2 src p fs p with
          | .error er => .error er
          | .ok fs1 =>
            .ok (fs1, tr ++ [.hashedS p (calculate_md5 h src p).isSome,
              .hashedR p (calculate_md5 h fs p).isSome, .updated p])
      else
        match copy2 src p fs p with
        | .error er => .error er
        | .ok fs1 => .ok (fs1, tr ++ [.updatedSize p])

/-- The propagation loop: fold `processItem` over the source listing; an
uncaught exception aborts the pass. -/
def propagate (h : List Nat → List Nat) (dsz : Nat) (src : FS) :
    List (RPath × Entry) → FS → List Act → Except SyncError (FS × List Act)
  | [], fs, tr => .ok (fs, tr)
  | (p, e) :: rest, fs, tr =>
    match processItem h dsz src fs tr p e with
    | .error er => .error er
    | .ok (fs1, tr1) => propagate h dsz src rest fs1 tr1

/-- Body of the pruning loop of `sync_directories` (lines 70-80) for one
replica path: a path that no longer exists was removed with an ancestor and
is never yielded by the lazy glob; an existing path absent from the source
is removed, recursively for a directory, by a single unlink for a file. -/
def pruneStep (src fs : FS) (tr : List Act) (p : RPath) : FS × List Act :=
  match fsFind fs p with
  | none => (fs, tr)
  | some e =>
    match fsFind src p with
    | some _ => (fs, tr)
    | none =>
      match e with
      | .dirE => (rmtree fs p, tr ++ [.deletedDir p])
      | .fileE _ _ => (unlink fs p, tr ++ [.deletedFile p])

/-- The pruning loop over a listing of replica paths. -/
def prunePass (src : FS) : List RPath → FS → List Act → FS × List Act
  | [], fs, tr => (fs, tr)
  | p :: rest, fs, tr =>
    let st := pruneStep src fs tr p
    prunePass src rest st.1 st.2

/-- Lines 37-40: create the replica root (with missing parents) if absent. -/
def ensureRoot : Option FS → FS × List Act
  | none => ([], [Act.createdRoot])
  | some r => (r, [])

/-- `sync_directories` (lines 32-80): ensure the replica root exists, run the
propagation pass over the source listing, then the pruning pass over the
resulting replica listing. -/
def sync_directories (h : List Nat → List Nat) (dsz : Nat) (src : FS)
    (ro : Option FS) : Except SyncError (FS × List Act) :=
  let st0 := ensureRoot ro
  match propagate h dsz src src st0.1 st0.2 with
  | .error er => .error er
  | .ok (fs1, tr1) => .ok (prunePass src (fsKeys fs1) fs1 tr1)

/-- Outcome of one scheduled iteration of `main`'s loop: the pass and sleep
finish normally, an exception escapes the pass, or a KeyboardInterrupt
arrives. -/
inductive PassResult where
  | passOk
  | passErr
  | passInterrupt
deriving DecidableEq

/-- What `main` logs per iteration: the "Synchronization complete" line, the
"An error occurred" line, or the "interrupted by user" line. -/
inductive LoopEvent where
  | completed
  | loggedError
  | loggedInterrupt
deriving DecidableEq

/-- `main` (lines 92-100): the `try` block wraps the whole `while True`
loop, so the first exception or interrupt leaves the loop after logging one
line.  The unbounded loop is run against a finite schedule of outcomes. -/
def mainLoop : List PassResult → List LoopEvent
  | [] => []
  | .passOk :: rest => .completed :: mainLoop rest
  | .passErr :: _ => [.loggedError]
  | .passInterrupt :: _ => [.loggedInterrupt]

/-- The fatal startup error of the `__main__` block (a `ValueError`). -/
inductive StartupError where
  | sourceInvalid
deriving DecidableEq

/-- Startup log events of the `__main__` block. -/
inductive StartEvent where
  | warnReplicaMissing
deriving DecidableEq

/-- Lines 114-122: a missing or non-directory source folder raises before
anything runs; a missing replica folder only logs a warning. -/
def argCheck (srcIsDir replIsDir : Bool) : Except StartupError (List StartEvent) :=
  if srcIsDir then .ok (if replIsDir then [] else [.warnReplicaMissing])
  else .error .sourceInvalid

/-- The `__main__` block followed by `main`: check the arguments, then run
the loop; on a bad source folder no pass is ever attempted. -/
def mainEntry (srcIsDir replIsDir : Bool) (ps : List PassResult) :
    Except StartupError (List LoopEvent) :=
  match argCheck srcIsDir replIsDir with
  | .error e => .error e
  | .ok _ => .ok (mainLoop ps)

/-- Boolean pairwise check along a list. -/
def pairwiseB (f : α → α → Bool) : List α → Bool
  | [] => true
  | a :: as => as.all (f a) && pairwiseB f as

/-- Well-formedness of one entry inside a tree: nonempty path, every strict
leading segment present as a directory. -/
def wfEntry (fs : FS) (pe : RPath × Entry) : Bool :=
  !pe.1.isEmpty &&
    (List.range (pe.1.length - 1)).all (fun i => isDirAt fs (pe.1.take (i + 1)))

/-- Well-formedness of a tree listing, as `rglob` produces it: every entry
well-formed, and no later path is a leading segment of an earlier one
(parents come first; in particular the paths are distinct). -/
def WF (fs : FS) : Bool :=
  fs.all (wfEntry fs) && pairwiseB (fun x y => !(pathLe y.1 x.1)) fs

/-- No type conflict between a source entry and the replica entry at the
same relative path. -/
def typeOkAt (e : Entry) (o : Option Entry) : Bool :=
  match e, o with
  | .dirE, some (.fileE _ _) => false
  | .fileE _ _, some .dirE => false
  | _, _ => true

/-- The source and replica trees disagree nowhere on the type of a path. -/
def noMismatch (src repl : FS) : Bool :=
  src.all (fun pe => typeOkAt pe.2 (fsFind repl pe.1))

/-- Not the one mismatch orientation that changes what a pass does to a
path: a source file where the replica holds a directory. -/
def fileDirOk : Entry → Option Entry → Bool
  | .fileE _ _, some .dirE => false
  | _, _ => true

/-- No relative path holds a file in the source where the replica holds a
directory (the opposite orientation, source directory over replica file, is
a no-op for the pass and need not be excluded). -/
def noFileDirMismatch (src repl : FS) : Bool :=
  src.all (fun pe => fileDirOk pe.2 (fsFind repl pe.1))

/-- Is an action a filesystem mutation (digest computations are not)? -/
def isMutation : Act → Bool
  | .hashedS _ _ => false
  | .hashedR _ _ => false
  | _ => true

/-- Is an action a failed digest computation (a per-file soft failure)? -/
def isHashFail : Act → Bool
  | .hashedS _ ok => !ok
  | .hashedR _ ok => !ok
  | _ => false

/-- The path removed by a deletion action, if any. -/
def deleteTarget : Act → Option RPath
  | .deletedFile p => some p
  | .deletedDir p => some p
  | _ => none

/-- One source entry is mirrored: the replica holds a directory at a source
directory's path, and at a source file's path a readable file with the very
same content. -/
def entryMirrored (fs : FS) (pe : RPath × Entry) : Bool :=
  match pe.2 with
  | .dirE => isDirAt fs pe.1
  | .fileE c _ =>
    match fsFind fs pe.1 with
    | some (.fileE c1 b) => decide (c1 = c) && !b
    | _ => false

/-- The replica is an exact mirror of the source: every source entry has a
structurally identical replica entry, and every replica entry's path exists
in the source. -/
def mirrors (src fs : FS) : Bool :=
  src.all (entryMirrored fs) && fs.all (fun pe => (fsFind src pe.1).isSome)

/-- Invariant of the replica state `fs` during the propagation pass, relative
to the source tree and the initial replica `repl`: paths outside the source
are untouched, a source directory's path is untouched or a directory, a
source file's path is untouched or holds a fresh copy of the source file. -/
def PropInv (src repl fs : FS) : Prop := ∀ q : RPath,
  (fsFind src q = none → fsFind fs q = fsFind repl q) ∧
  (fsFind src q = some .dirE →
    fsFind fs q = fsFind repl q ∨ fsFind fs q = some .dirE) ∧
  (∀ c r, fsFind src q = some (.fileE c r) →
    fsFind fs q = fsFind repl q ∨ fsFind fs q = some (.fileE c false))

/-- What the propagation pass guarantees for one processed source item when
it returns without error: a directory exists in the replica; a file was
either (re)copied, or kept because it had the same size and its digest
computation returned the same result as the source's. -/
def DoneP (h : List Nat → List Nat) (src fs : FS) (tr : List Act)
    (p : RPath) : Entry → Prop
  | .dirE => (fsFind fs p).isSome = true
  | .fileE c r =>
    (r = false ∧ fsFind fs p = some (.fileE c false))
    ∨ (∃ c1 r1, fsFind fs p = some (.fileE c1 r1) ∧ c1.length = c.length ∧
        calculate_md5 h src p = calculate_md5 h fs p ∧
        Act.hashedS p (calculate_md5 h src p).isSome ∈ tr ∧
        Act.hashedR p (calculate_md5 h fs p).isSome ∈ tr)

/-- The second of two back-to-back runs leaves the replica unchanged and
performs no mutation (the first run's result is fed back in). -/
def rerunClean (h : List Nat → List Nat) (dsz : Nat) (src fs1 : FS) : Bool :=
  match sync_directories h dsz src (some fs1) with
  | .ok (fs2, tr2) => decide (fs2 = fs1) && tr2.all (fun a => !isMutation a)
  | .error _ => false

theorem fsFind_mem {fs : FS} {p : RPath} {e : Entry}
    (hf : fsFind fs p = some e) : (p, e) ∈ fs := by
  induction fs with
  | nil => simp [fsFind] at hf
  | cons pe rest ih =>
    obtain ⟨q, e0⟩ := pe
    by_cases hq : q = p
    · subst hq
      simp [fsFind] at hf
      simp [hf]
    · simp [fsFind, hq] at hf
      exact List.mem_cons_of_mem _ (ih hf)

theorem fsFind_ne_none_of_mem {fs : FS} {p : RPath} {e : Entry}
    (hm : (p, e) ∈ fs) : fsFind fs p ≠ none := by
  induction fs with
  | nil => simp at hm
  | cons pe rest ih =>
    obtain ⟨q, e0⟩ := pe
    by_cases hq : q = p
    · subst hq; simp [fsFind]
    · rcases List.mem_cons.mp hm with h1 | h1
      · exact absurd (congrArg Prod.fst h1).symm hq
      · simpa [fsFind, hq] using ih h1

theorem fsFind_ne_none_iff {fs : FS} {p : RPath} :
    fsFind fs p ≠ none ↔ p ∈ fsKeys fs := by
  constructor
  · intro hne
    match hf : fsFind fs p with
    | none => exact absurd hf hne
    | some e => exact List.mem_map.mpr ⟨(p, e), fsFind_mem hf, rfl⟩
  · intro hk
    rcases List.mem_map.mp hk with ⟨⟨q, e⟩, hm, hq⟩
    cases hq
    exact fsFind_ne_none_of_mem hm

theorem fsFind_filterKeys (f : RPath → Bool) (fs : FS) (p : RPath) :
    fsFind (fsFilterKeys f fs) p = if f p then fsFind fs p else none := by
  induction fs with
  | nil => simp [fsFilterKeys, fsFind]
  | cons pe rest ih =>
    obtain ⟨q, e0⟩ := pe
    by_cases hq : q = p
    · subst hq
      by_cases hf : f q
      · simp [fsFilterKeys, List.filter, hf, fsFind] at ih ⊢
      · simp [fsFilterKeys, List.filter, hf, fsFind] at ih ⊢
        exact ih
    · by_cases hf : f q
      · simp [fsFilterKeys, List.filter, hf, fsFind, hq] at ih ⊢
        exact ih
      · simp [fsFilterKeys, List.filter, hf, fsFind, hq] at ih ⊢
        exact ih

theorem fsFind_insert_self (fs : FS) (p : RPath) (e : Entry) :
    fsFind (fsInsert fs p e) p = some e := by
  induction fs with
  | nil => simp [fsInsert, fsFind]
  | cons pe rest ih =>
    obtain ⟨q, e0⟩ := pe
    by_cases hq : q = p
    · simp [fsInsert, hq, fsFind]
    · simp [fsInsert, hq, fsFind, ih]

theorem fsFind_insert_ne (fs : FS) (p : RPath) (e : Entry) {q : RPath}
    (hq : q ≠ p) : fsFind (fsInsert fs p e) q = fsFind fs q := by
  have hpq : p ≠ q := fun h => hq h.symm
  induction fs with
  | nil => simp [fsInsert, fsFind, hpq]
  | cons pe rest ih =>
    obtain ⟨q0, e0⟩ := pe
    by_cases h0 : q0 = p
    · subst h0
      simp [fsInsert, fsFind, hpq]
    · simp [fsInsert, h0, fsFind, ih]

theorem fsFind_append_some {fs : FS} {p : RPath} {e : Entry}
    (hf : fsFind fs p = some e) (l : FS) : fsFind (fs ++ l) p = some e := by
  induction fs with
  | nil => simp [fsFind] at hf
  | cons pe rest ih =>
    obtain ⟨q, e0⟩ := pe
    by_cases hq : q = p
    · subst hq
      simp [fsFind] at hf ⊢
      exact hf
    · simp [fsFind, hq] at hf ⊢
      exact ih hf

theorem pathLe_refl (p : RPath) : pathLe p p = true := by
  induction p with
  | nil => rfl
  | cons a as ih => simp [pathLe, ih]

theorem pathLe_take {p q : RPath} (hle : pathLe p q = true) :
    q.take p.length = p := by
  induction p generalizing q with
  | nil => simp
  | cons a as ih =>
    cases q with
    | nil => simp [pathLe] at hle
    | cons b bs =>
      simp [pathLe] at hle
      obtain ⟨hab, hrest⟩ := hle
      simp [List.take, hab, ih hrest]

theorem pathLe_length {p q : RPath} (hle : pathLe p q = true) :
    p.length ≤ q.length := by
  induction p generalizing q with
  | nil => simp
  | cons a as ih =>
    cases q with
    | nil => simp [pathLe] at hle
    | cons b bs =>
      simp [pathLe] at hle
      simpa using ih hle.2

theorem pathLe_of_take {p q : RPath} (ht : q.take p.length = p) :
    pathLe p q = true := by
  induction p generalizing q with
  | nil => rfl
  | cons a as ih =>
    cases q with
    | nil => simp at ht
    | cons b bs =>
      simp [List.take] at ht
      simp [pathLe, ht.1.symm, ih ht.2]

theorem pathLe_antisymm {p q : RPath} (hle : pathLe p q = true)
    (hlen : q.length ≤ p.length) : p = q := by
  have ht := pathLe_take hle
  have h1 : q.take p.length = q := List.take_of_length_le hlen
  rw [h1] at ht
  exact ht.symm

theorem pairwiseB_iff (f : α → α → Bool) (l : List α) :
    pairwiseB f l = true ↔ List.Pairwise (fun a b => f a b = true) l := by
  induction l with
  | nil => simp [pairwiseB]
  | cons a as ih =>
    simp only [pairwiseB, Bool.and_eq_true, List.all_eq_true, List.pairwise_cons, ih]

theorem isDirAt_iff (fs : FS) (p : RPath) :
    isDirAt fs p = true ↔ fsFind fs p = some .dirE := by
  unfold isDirAt
  match hf : fsFind fs p with
  | none => simp
  | some .dirE => simp
  | some (.fileE c b) => simp

theorem WF_pairwise {fs : FS} (hwf : WF fs = true) :
    List.Pairwise (fun x y : RPath × Entry => pathLe y.1 x.1 = false) fs := by
  simp only [WF, Bool.and_eq_true] at hwf
  have := (pairwiseB_iff _ _).mp hwf.2
  refine this.imp ?_
  intro a b hab
  simpa using hab

theorem keysDistinct_find {fs : FS}
    (hpw : List.Pairwise (fun x y : RPath × Entry => pathLe y.1 x.1 = false) fs)
    {p : RPath} {e : Entry} (hm : (p, e) ∈ fs) : fsFind fs p = some e := by
  induction fs with
  | nil => simp at hm
  | cons pe rest ih =>
    obtain ⟨q, e0⟩ := pe
    rcases List.pairwise_cons.mp hpw with ⟨hhead, htail⟩
    rcases List.mem_cons.mp hm with h1 | h1
    · injection h1 with h1a h1b
      subst h1a
      subst h1b
      simp [fsFind]
    · have hne : q ≠ p := by
        intro hpq
        subst hpq
        have := hhead _ h1
        rw [pathLe_refl] at this
        exact Bool.false_ne_true this.symm
      simp only [fsFind, if_neg hne]
      exact ih htail h1

theorem WF_find_of_mem {fs : FS} (hwf : WF fs = true) {p : RPath} {e : Entry}
    (hm : (p, e) ∈ fs) : fsFind fs p = some e :=
  keysDistinct_find (WF_pairwise hwf) hm

theorem WF_ne_nil {fs : FS} (hwf : WF fs = true) {p : RPath} {e : Entry}
    (hm : (p, e) ∈ fs) : p ≠ [] := by
  simp only [WF, Bool.and_eq_true] at hwf
  have h1 := List.all_eq_true.mp hwf.1 _ hm
  simp only [wfEntry, Bool.and_eq_true] at h1
  simpa using h1.1

theorem WF_strict_seg {fs : FS} (hwf : WF fs = true) {p : RPath} {e : Entry}
    (hm : (p, e) ∈ fs) {i : Nat} (hi : i + 1 < p.length) :
    fsFind fs (p.take (i + 1)) = some .dirE := by
  simp only [WF, Bool.and_eq_true] at hwf
  have hw := List.all_eq_true.mp hwf.1 _ hm
  simp only [wfEntry, Bool.and_eq_true] at hw
  have hir : i ∈ List.range (p.length - 1) := by
    rw [List.mem_range]
    omega
  have := List.all_eq_true.mp hw.2 _ hir
  exact (isDirAt_iff fs _).mp this

theorem noMismatch_spec {src repl : FS} (hnm : noMismatch src repl = true)
    {q : RPath} {e : Entry} (hf : fsFind src q = some e) :
    typeOkAt e (fsFind repl q) = true := by
  exact List.all_eq_true.mp hnm _ (fsFind_mem hf)

theorem noFileDirMismatch_spec {src repl : FS}
    (hnm : noFileDirMismatch src repl = true) {q : RPath} {c : List Nat}
    {r : Bool} (hf : fsFind src q = some (.fileE c r)) :
    fsFind repl q ≠ some Entry.dirE := by
  intro hcon
  have hx : fileDirOk (Entry.fileE c r) (fsFind repl q) = true :=
    List.all_eq_true.mp hnm _ (fsFind_mem hf)
  rw [hcon] at hx
  simp [fileDirOk] at hx

theorem fileDirOk_of_typeOk : ∀ (e : Entry) (o : Option Entry),
    typeOkAt e o = true → fileDirOk e o = true
  | .dirE, none, _ => rfl
  | .dirE, some .dirE, _ => rfl
  | .dirE, some (.fileE _ _), _ => rfl
  | .fileE _ _, none, _ => rfl
  | .fileE _ _, some .dirE, hx => hx
  | .fileE _ _, some (.fileE _ _), _ => rfl

theorem noMismatch_to_noFileDir {src repl : FS}
    (hnm : noMismatch src repl = true) : noFileDirMismatch src repl = true := by
  unfold noFileDirMismatch
  rw [List.all_eq_true]
  intro pe hm
  exact fileDirOk_of_typeOk pe.2 (fsFind repl pe.1)
    (List.all_eq_true.mp hnm _ hm)

theorem fsFind_append_one (fs : FS) (q : RPath) (e : Entry) (r : RPath) :
    fsFind (fs ++ [(q, e)]) r =
      match fsFind fs r with
      | some v => some v
      | none => if q = r then some e else none := by
  induction fs with
  | nil => simp [fsFind]
  | cons pe rest ih =>
    obtain ⟨q0, e0⟩ := pe
    by_cases h0 : q0 = r
    · simp [fsFind, h0]
    · simp [fsFind, h0, ih]

theorem mkdirSteps_pres {fs : FS} {qs : List RPath} {fs1 : FS}
    (hok : mkdirSteps fs qs = .ok fs1) {r : RPath} {e : Entry}
    (hf : fsFind fs r = some e) : fsFind fs1 r = some e := by
  induction qs generalizing fs with
  | nil =>
    simp [mkdirSteps] at hok
    rw [← hok]
    exact hf
  | cons q qs ih =>
    unfold mkdirSteps at hok
    match hq : fsFind fs q with
    | none =>
      rw [hq] at hok
      exact ih hok (fsFind_append_some hf _)
    | some .dirE =>
      rw [hq] at hok
      exact ih hok hf
    | some (.fileE c b) =>
      rw [hq] at hok
      exact absurd hok (by simp)

theorem mkdirSteps_new {fs : FS} {qs : List RPath} {fs1 : FS}
    (hok : mkdirSteps fs qs = .ok fs1) (r : RPath) :
    fsFind fs1 r = fsFind fs r ∨ (r ∈ qs ∧ fsFind fs1 r = some .dirE) := by
  induction qs generalizing fs with
  | nil =>
    simp [mkdirSteps] at hok
    left
    rw [← hok]
  | cons q qs ih =>
    unfold mkdirSteps at hok
    match hq : fsFind fs q with
    | none =>
      rw [hq] at hok
      rcases ih hok with h1 | h1
      · rw [fsFind_append_one] at h1
        by_cases hqr : q = r
        · subst hqr
          rw [hq] at h1
          simp at h1
          right
          exact ⟨List.mem_cons_self _ _, h1⟩
        · left
          rw [h1]
          cases hfr : fsFind fs r <;> simp [hqr]
      · right
        exact ⟨List.mem_cons_of_mem _ h1.1, h1.2⟩
    | some .dirE =>
      rw [hq] at hok
      rcases ih hok with h1 | h1
      · left; exact h1
      · right; exact ⟨List.mem_cons_of_mem _ h1.1, h1.2⟩
    | some (.fileE c b) =>
      rw [hq] at hok
      exact absurd hok (by simp)

theorem mkdirSteps_all {fs : FS} {qs : List RPath} {fs1 : FS}
    (hok : mkdirSteps fs qs = .ok fs1) :
    ∀ r ∈ qs, fsFind fs1 r = some .dirE := by
  induction qs generalizing fs with
  | nil => simp
  | cons q qs ih =>
    intro r hr
    unfold mkdirSteps at hok
    match hq : fsFind fs q with
    | none =>
      rw [hq] at hok
      rcases List.mem_cons.mp hr with h1 | h1
      · subst h1
        refine mkdirSteps_pres hok ?_
        rw [fsFind_append_one, hq]
        simp
      · exact ih hok _ h1
    | some .dirE =>
      rw [hq] at hok
      rcases List.mem_cons.mp hr with h1 | h1
      · subst h1
        exact mkdirSteps_pres hok hq
      · exact ih hok _ h1
    | some (.fileE c b) =>
      rw [hq] at hok
      exact absurd hok (by simp)

theorem copy2_dest_self {src fs : FS} {p : RPath} {fs1 : FS}
    (hnd : fsFind fs p ≠ some Entry.dirE)
    (hok : copy2 src p fs p = .ok fs1) :
    ∃ c, fsFind src p = some (.fileE c false) ∧
      fs1 = fsInsert fs p (.fileE c false) := by
  match hs : fsFind src p with
  | none => simp [copy2, hs] at hok
  | some .dirE => simp [copy2, hs] at hok
  | some (.fileE c true) => simp [copy2, hs] at hok
  | some (.fileE c false) =>
    refine ⟨c, rfl, ?_⟩
    match hd : fsFind fs p with
    | some .dirE => exact absurd hd hnd
    | some (.fileE c1 b1) =>
      simp [copy2, hs, hd] at hok
      exact hok.symm
    | none =>
      by_cases hp : parentIsDir fs p
      · simp [copy2, hs, hd, hp] at hok
        exact hok.symm
      · simp [copy2, hs, hd, hp] at hok

theorem copy2_src_file {src fs : FS} {p q : RPath} {fs1 : FS}
    (hok : copy2 src p fs q = .ok fs1) :
    ∃ c, fsFind src p = some (.fileE c false) := by
  match hs : fsFind src p with
  | none => simp [copy2, hs] at hok
  | some .dirE => simp [copy2, hs] at hok
  | some (.fileE c true) => simp [copy2, hs] at hok
  | some (.fileE c false) => exact ⟨c, rfl⟩

theorem processItem_trace {h : List Nat → List Nat} {dsz : Nat} {src fs : FS}
    {tr : List Act} {p : RPath} {e : Entry} {fs1 : FS} {tr1 : List Act}
    (hok : processItem h dsz src fs tr p e = .ok (fs1, tr1)) :
    ∃ d, tr1 = tr ++ d := by
  cases e with
  | dirE =>
    simp only [processItem] at hok
    match hf : fsFind fs p with
    | some e0 =>
      rw [hf] at hok
      simp at hok
      exact ⟨[], by rw [← hok.2, List.append_nil]⟩
    | none =>
      rw [hf] at hok
      match hmk : mkdirParents fs p with
      | .error er => rw [hmk] at hok; simp at hok
      | .ok fsm =>
        rw [hmk] at hok
        simp at hok
        exact ⟨[.createdDir p], hok.2.symm⟩
  | fileE c r =>
    simp only [processItem] at hok
    match hf : fsFind fs p with
    | none =>
      rw [hf] at hok
      match hc : copy2 src p fs p with
      | .error er => rw [hc] at hok; simp at hok
      | .ok fsm =>
        rw [hc] at hok
        simp at hok
        exact ⟨[.copiedNew p], hok.2.symm⟩
    | some re =>
      simp only [hf] at hok
      by_cases hl : c.length = entrySize dsz re
      · rw [if_pos hl] at hok
        by_cases hsm : calculate_md5 h src p = calculate_md5 h fs p
        · rw [if_pos hsm] at hok
          simp at hok
          exact ⟨[.hashedS p (calculate_md5 h src p).isSome,
            .hashedR p (calculate_md5 h fs p).isSome], hok.2.symm⟩
        · rw [if_neg hsm] at hok
          match hc : copy2 src p fs p with
          | .error er => rw [hc] at hok; simp at hok
          | .ok fsm =>
            rw [hc] at hok
            simp at hok
            exact ⟨[.hashedS p (calculate_md5 h src p).isSome,
              .hashedR p (calculate_md5 h fs p).isSome, .updated p], hok.2.symm⟩
      · rw [if_neg hl] at hok
        match hc : copy2 src p fs p with
        | .error er => rw [hc] at hok; simp at hok
        | .ok fsm =>
          rw [hc] at hok
          simp at hok
          exact ⟨[.updatedSize p], hok.2.symm⟩

theorem propagate_cons {h : List Nat → List Nat} {dsz : Nat} {src : FS}
    {p : RPath} {e : Entry} {rest : List (RPath × Entry)} {fs : FS}
    {tr : List Act} {out : FS × List Act}
    (hok : propagate h dsz src ((p, e) :: rest) fs tr = .ok out) :
    ∃ fsm trm, processItem h dsz src fs tr p e = .ok (fsm, trm) ∧
      propagate h dsz src rest fsm trm = .ok out := by
  unfold propagate at hok
  match hp : processItem h dsz src fs tr p e with
  | .error er => rw [hp] at hok; simp at hok
  | .ok (fsm, trm) =>
    rw [hp] at hok
    exact ⟨fsm, trm, rfl, hok⟩

theorem propagate_trace {h : List Nat → List Nat} {dsz : Nat} {src : FS} :
    ∀ {l : List (RPath × Entry)} {fs : FS} {tr : List Act} {fs1 : FS}
    {tr1 : List Act},
    propagate h dsz src l fs tr = .ok (fs1, tr1) → ∃ d, tr1 = tr ++ d := by
  intro l
  induction l with
  | nil =>
    intro fs tr fs1 tr1 hok
    simp [propagate] at hok
    exact ⟨[], by rw [← hok.2, List.append_nil]⟩
  | cons pe rest ih =>
    intro fs tr fs1 tr1 hok
    obtain ⟨p, e⟩ := pe
    obtain ⟨fsm, trm, hp, hrest⟩ := propagate_cons hok
    obtain ⟨d1, hd1⟩ := processItem_trace hp
    obtain ⟨d2, hd2⟩ := ih hrest
    exact ⟨d1 ++ d2, by rw [hd2, hd1, List.append_assoc]⟩

theorem pruneStep_trace (src fs : FS) (tr : List Act) (p : RPath) :
    ∃ d, (pruneStep src fs tr p).2 = tr ++ d := by
  unfold pruneStep
  match hf : fsFind fs p with
  | none => exact ⟨[], by simp⟩
  | some e =>
    match hs : fsFind src p with
    | some e0 => exact ⟨[], by simp⟩
    | none =>
      match e with
      | .dirE => exact ⟨[.deletedDir p], by simp⟩
      | .fileE c b => exact ⟨[.deletedFile p], by simp⟩

theorem prunePass_trace (src : FS) :
    ∀ (ks : List RPath) (fs : FS) (tr : List Act),
    ∃ d, (prunePass src ks fs tr).2 = tr ++ d := by
  intro ks
  induction ks with
  | nil => exact fun fs tr => ⟨[], by simp [prunePass]⟩
  | cons q rest ih =>
    intro fs tr
    obtain ⟨d1, hd1⟩ := pruneStep_trace src fs tr q
    obtain ⟨d2, hd2⟩ := ih (pruneStep src fs tr q).1 (pruneStep src fs tr q).2
    refine ⟨d1 ++ d2, ?_⟩
    unfold prunePass
    rw [hd2, hd1, List.append_assoc]

theorem mem_ancestorsOf_self {p : RPath} (hp : p ≠ []) : p ∈ ancestorsOf p := by
  have hlen : 0 < p.length := List.length_pos.mpr hp
  unfold ancestorsOf
  refine List.mem_map.mpr ⟨p.length - 1, ?_, ?_⟩
  · rw [List.mem_range]; omega
  · have heq : p.length - 1 + 1 = p.length := by omega
    rw [heq, List.take_length]

theorem calculate_congr {h : List Nat → List Nat} {fs fs1 : FS} {p : RPath}
    (heq : fsFind fs p = fsFind fs1 p) :
    calculate_md5 h fs p = calculate_md5 h fs1 p := by
  unfold calculate_md5
  rw [heq]

theorem processItem_spec {h : List Nat → List Nat} {dsz : Nat}
    {src repl fs : FS} {tr : List Act} {p : RPath} {e : Entry}
    {fs1 : FS} {tr1 : List Act}
    (hnm : noFileDirMismatch src repl = true)
    (hsrc : fsFind src p = some e)
    (hp0 : p ≠ [])
    (hanc : e = .dirE → ∀ r ∈ ancestorsOf p, fsFind src r = some .dirE)
    (hinv : PropInv src repl fs)
    (hok : processItem h dsz src fs tr p e = .ok (fs1, tr1)) :
    PropInv src repl fs1 ∧ DoneP h src fs1 tr1 p e ∧
    (∀ q v, q ≠ p → fsFind fs q = some v → fsFind fs1 q = some v) := by
  cases e with
  | dirE =>
    simp only [processItem] at hok
    match hf : fsFind fs p with
    | some e0 =>
      simp only [hf] at hok
      simp at hok
      obtain ⟨h1, h2⟩ := hok
      subst h1
      subst h2
      refine ⟨hinv, ?_, fun q v _ hv => hv⟩
      show (fsFind fs p).isSome = true
      rw [hf]
      rfl
    | none =>
      simp only [hf] at hok
      match hmk : mkdirParents fs p with
      | .error er => rw [hmk] at hok; simp at hok
      | .ok fsm =>
        rw [hmk] at hok
        simp at hok
        obtain ⟨h1, h2⟩ := hok
        subst h1
        have hmk' : mkdirSteps fs (ancestorsOf p) = .ok fsm := hmk
        refine ⟨?_, ?_, ?_⟩
        · intro q
          rcases mkdirSteps_new hmk' q with heq | ⟨hqa, hdq⟩
          · refine ⟨?_, ?_, ?_⟩
            · intro hn; rw [heq]; exact (hinv q).1 hn
            · intro hd
              rcases (hinv q).2.1 hd with h3 | h3
              · left; rw [heq]; exact h3
              · right; rw [heq]; exact h3
            · intro c0 r0 hfi
              rcases (hinv q).2.2 c0 r0 hfi with h3 | h3
              · left; rw [heq]; exact h3
              · right; rw [heq]; exact h3
          · have hsq := hanc rfl q hqa
            refine ⟨?_, ?_, ?_⟩
            · intro hn; rw [hn] at hsq; exact absurd hsq (by simp)
            · intro _; right; exact hdq
            · intro c0 r0 hfi; rw [hfi] at hsq; simp at hsq
        · show (fsFind fsm p).isSome = true
          rw [mkdirSteps_all hmk' p (mem_ancestorsOf_self hp0)]
          rfl
        · intro q v _ hv
          exact mkdirSteps_pres hmk' hv
  | fileE c r =>
    have hnd : fsFind fs p ≠ some Entry.dirE := by
      intro hdir
      rcases (hinv p).2.2 c r hsrc with hrep | hcp
      · exact noFileDirMismatch_spec hnm hsrc (by rw [← hrep]; exact hdir)
      · rw [hcp] at hdir; simp at hdir
    simp only [processItem] at hok
    match hf : fsFind fs p with
    | none =>
      simp only [hf] at hok
      match hc : copy2 src p fs p with
      | .error er => rw [hc] at hok; simp at hok
      | .ok fsm =>
        rw [hc] at hok
        simp at hok
        obtain ⟨h1, h2⟩ := hok
        subst h1
        obtain ⟨c0, hc0, hins⟩ := copy2_dest_self hnd hc
        rw [hsrc] at hc0
        injection hc0 with hc0'
        injection hc0' with hceq hreq
        subst hceq
        subst hreq
        refine ⟨?_, ?_, ?_⟩
        · intro q
          by_cases hq : q = p
          · subst hq
            refine ⟨?_, ?_, ?_⟩
            · intro hn; rw [hn] at hsrc; exact absurd hsrc (by simp)
            · intro hd; rw [hd] at hsrc; simp at hsrc
            · intro c2 r2 hfi
              rw [hfi] at hsrc
              injection hsrc with hs1
              injection hs1 with hs2 hs3
              subst hs2
              right
              rw [hins]
              exact fsFind_insert_self fs q _
          · have hne := fsFind_insert_ne fs p (Entry.fileE c false) hq
            rw [← hins] at hne
            refine ⟨?_, ?_, ?_⟩
            · intro hn; rw [hne]; exact (hinv q).1 hn
            · intro hd
              rcases (hinv q).2.1 hd with h3 | h3
              · left; rw [hne]; exact h3
              · right; rw [hne]; exact h3
            · intro c0 r0 hfi
              rcases (hinv q).2.2 c0 r0 hfi with h3 | h3
              · left; rw [hne]; exact h3
              · right; rw [hne]; exact h3
        · left
          refine ⟨rfl, ?_⟩
          rw [hins]
          exact fsFind_insert_self fs p _
        · intro q v hq hv
          rw [hins, fsFind_insert_ne _ _ _ hq]
          exact hv
    | some re =>
      simp only [hf] at hok
      obtain ⟨c1, r1, hre⟩ : ∃ c1 r1, re = Entry.fileE c1 r1 := by
        cases re with
        | dirE => exact absurd hf hnd
        | fileE c1 r1 => exact ⟨c1, r1, rfl⟩
      subst hre
      by_cases hl : c.length = entrySize dsz (Entry.fileE c1 r1)
      · rw [if_pos hl] at hok
        by_cases hsm : calculate_md5 h src p = calculate_md5 h fs p
        · rw [if_pos hsm] at hok
          simp at hok
          obtain ⟨h1, h2⟩ := hok
          subst h1
          refine ⟨hinv, ?_, fun q v _ hv => hv⟩
          right
          refine ⟨c1, r1, hf, ?_, hsm, ?_, ?_⟩
          · simpa [entrySize] using hl.symm
          · rw [← h2]; simp
          · rw [← h2]; simp
        · rw [if_neg hsm] at hok
          match hc : copy2 src p fs p with
          | .error er => rw [hc] at hok; simp at hok
          | .ok fsm =>
            rw [hc] at hok
            simp at hok
            obtain ⟨h1, h2⟩ := hok
            subst h1
            obtain ⟨c0, hc0, hins⟩ := copy2_dest_self hnd hc
            rw [hsrc] at hc0
            injection hc0 with hc0'
            injection hc0' with hceq hreq
            subst hceq
            subst hreq
            refine ⟨?_, ?_, ?_⟩
            · intro q
              by_cases hq : q = p
              · subst hq
                refine ⟨?_, ?_, ?_⟩
                · intro hn; rw [hn] at hsrc; exact absurd hsrc (by simp)
                · intro hd; rw [hd] at hsrc; simp at hsrc
                · intro c2 r2 hfi
                  rw [hfi] at hsrc
                  injection hsrc with hs1
                  injection hs1 with hs2 hs3
                  subst hs2
                  right
                  rw [hins]
                  exact fsFind_insert_self fs q _
              · have hne := fsFind_insert_ne fs p (Entry.fileE c false) hq
                rw [← hins] at hne
                refine ⟨?_, ?_, ?_⟩
                · intro hn; rw [hne]; exact (hinv q).1 hn
                · intro hd
                  rcases (hinv q).2.1 hd with h3 | h3
                  · left; rw [hne]; exact h3
                  · right; rw [hne]; exact h3
                · intro c2 r2 hfi
                  rcases (hinv q).2.2 c2 r2 hfi with h3 | h3
                  · left; rw [hne]; exact h3
                  · right; rw [hne]; exact h3
            · left
              refine ⟨rfl, ?_⟩
              rw [hins]
              exact fsFind_insert_self fs p _
            · intro q v hq hv
              rw [hins, fsFind_insert_ne _ _ _ hq]
              exact hv
      · rw [if_neg hl] at hok
        match hc : copy2 src p fs p with
        | .error er => rw [hc] at hok; simp at hok
        | .ok fsm =>
          rw [hc] at hok
          simp at hok
          obtain ⟨h1, h2⟩ := hok
          subst h1
          obtain ⟨c0, hc0, hins⟩ := copy2_dest_self hnd hc
          rw [hsrc] at hc0
          injection hc0 with hc0'
          injection hc0' with hceq hreq
          subst hceq
          subst hreq
          refine ⟨?_, ?_, ?_⟩
          · intro q
            by_cases hq : q = p
            · subst hq
              refine ⟨?_, ?_, ?_⟩
              · intro hn; rw [hn] at hsrc; exact absurd hsrc (by simp)
              · intro hd; rw [hd] at hsrc; simp at hsrc
              · intro c2 r2 hfi
                rw [hfi] at hsrc
                injection hsrc with hs1
                injection hs1 with hs2 hs3
                subst hs2
                right
                rw [hins]
                exact fsFind_insert_self fs q _
            · have hne := fsFind_insert_ne fs p (Entry.fileE c false) hq
              rw [← hins] at hne
              refine ⟨?_, ?_, ?_⟩
              · intro hn; rw [hne]; exact (hinv q).1 hn
              · intro hd
                rcases (hinv q).2.1 hd with h3 | h3
                · left; rw [hne]; exact h3
                · right; rw [hne]; exact h3
              · intro c2 r2 hfi
                rcases (hinv q).2.2 c2 r2 hfi with h3 | h3
                · left; rw [hne]; exact h3
                · right; rw [hne]; exact h3
          · left
            refine ⟨rfl, ?_⟩
            rw [hins]
            exact fsFind_insert_self fs p _
          · intro q v hq hv
            rw [hins, fsFind_insert_ne _ _ _ hq]
            exact hv

theorem propagate_spec {h : List Nat → List Nat} {dsz : Nat} {src repl : FS}
    (hnm : noFileDirMismatch src repl = true) :
    ∀ {l : List (RPath × Entry)} {fs : FS} {tr : List Act} {fs1 : FS}
    {tr1 : List Act},
    List.Pairwise (fun x y : RPath × Entry => x.1 ≠ y.1) l →
    (∀ pe ∈ l, fsFind src pe.1 = some pe.2 ∧ pe.1 ≠ []) →
    (∀ pe ∈ l, pe.2 = .dirE → ∀ r ∈ ancestorsOf pe.1, fsFind src r = some .dirE) →
    PropInv src repl fs →
    propagate h dsz src l fs tr = .ok (fs1, tr1) →
    PropInv src repl fs1 ∧
    (∀ q v, q ∉ l.map Prod.fst → fsFind fs q = some v → fsFind fs1 q = some v) ∧
    (∀ pe ∈ l, DoneP h src fs1 tr1 pe.1 pe.2) := by
  intro l
  induction l with
  | nil =>
    intro fs tr fs1 tr1 _ _ _ hinv hok
    simp [propagate] at hok
    obtain ⟨h1, h2⟩ := hok
    subst h1
    exact ⟨hinv, fun q v _ hv => hv, by simp⟩
  | cons pe rest ih =>
    intro fs tr fs1 tr1 hpw hmem hanc hinv hok
    obtain ⟨p, e⟩ := pe
    obtain ⟨fsm, trm, hstep, hrest⟩ := propagate_cons hok
    obtain ⟨hm1, hm2⟩ := hmem _ (List.mem_cons_self _ _)
    obtain ⟨hinv1, hdone1, hpres1⟩ := processItem_spec hnm hm1 hm2
      (fun he => hanc _ (List.mem_cons_self _ _) he) hinv hstep
    rcases List.pairwise_cons.mp hpw with ⟨hhead, htail⟩
    obtain ⟨hinv2, hpres2, hdone2⟩ := ih htail
      (fun pe2 hm => hmem _ (List.mem_cons_of_mem _ hm))
      (fun pe2 hm => hanc _ (List.mem_cons_of_mem _ hm))
      hinv1 hrest
    refine ⟨hinv2, ?_, ?_⟩
    · intro q v hq hv
      rw [List.map_cons] at hq
      have hq1 : q ≠ p := fun hqp => hq (hqp ▸ List.mem_cons_self _ _)
      have hq2 : q ∉ rest.map Prod.fst := fun hm => hq (List.mem_cons_of_mem _ hm)
      exact hpres2 q v hq2 (hpres1 q v hq1 hv)
    · intro pe2 hm
      rcases List.mem_cons.mp hm with h1 | h1
      · subst h1
        have hpnotin : p ∉ rest.map Prod.fst := by
          intro hmm
          rcases List.mem_map.mp hmm with ⟨⟨p2, e2⟩, hm2e, hp2⟩
          exact hhead _ hm2e hp2.symm
        obtain ⟨d2, hd2⟩ := propagate_trace hrest
        cases e with
        | dirE =>
          show (fsFind fs1 p).isSome = true
          have hdone1' : (fsFind fsm p).isSome = true := hdone1
          obtain ⟨v, hv⟩ := Option.isSome_iff_exists.mp hdone1'
          rw [hpres2 p v hpnotin hv]
          rfl
        | fileE c r =>
          rcases hdone1 with ⟨hr, hfind⟩ | ⟨c1, r1, hfind, hlen, hdig, hmS, hmR⟩
          · exact Or.inl ⟨hr, hpres2 p _ hpnotin hfind⟩
          · right
            have hfind1 : fsFind fs1 p = some (.fileE c1 r1) :=
              hpres2 p _ hpnotin hfind
            have hcc : calculate_md5 h fsm p = calculate_md5 h fs1 p :=
              calculate_congr (by rw [hfind, hfind1])
            refine ⟨c1, r1, hfind1, hlen, ?_, ?_, ?_⟩
            · rw [← hcc]; exact hdig
            · rw [hd2]; exact List.mem_append_left _ hmS
            · rw [← hcc, hd2]; exact List.mem_append_left _ hmR
      · exact hdone2 _ h1

theorem WF_closed {src : FS} (hwf : WF src = true) {q : RPath}
    (hq : fsFind src q ≠ none) {r : RPath} (hr : r ≠ [])
    (hle : pathLe r q = true) : fsFind src r ≠ none := by
  match hfq : fsFind src q with
  | none => exact absurd hfq hq
  | some e =>
    have hm := fsFind_mem hfq
    have hlen := pathLe_length hle
    by_cases heq : r.length = q.length
    · rw [pathLe_antisymm hle (le_of_eq heq.symm)]
      exact hq
    · have hlt : r.length < q.length := lt_of_le_of_ne hlen heq
      have hrpos : 0 < r.length := List.length_pos.mpr hr
      have hseg := WF_strict_seg hwf hm (i := r.length - 1)
        (by omega)
      have : q.take (r.length - 1 + 1) = r := by
        have h1 : r.length - 1 + 1 = r.length := by omega
        rw [h1]
        exact pathLe_take hle
      rw [this] at hseg
      rw [hseg]
      simp

theorem WF_file_no_desc {fs : FS} (hwf : WF fs = true) {p q : RPath}
    (hp : ∃ c b, fsFind fs p = some (.fileE c b)) (hle : pathLe p q = true)
    (hne : q ≠ p) : fsFind fs q = none := by
  obtain ⟨c, b, hpf⟩ := hp
  match hfq : fsFind fs q with
  | none => rfl
  | some e =>
    exfalso
    have hm := fsFind_mem hfq
    have hlen := pathLe_length hle
    have hppos : p ≠ [] := WF_ne_nil hwf (fsFind_mem hpf)
    by_cases heq : p.length = q.length
    · exact hne (pathLe_antisymm hle (le_of_eq heq.symm)).symm
    · have hlt : p.length < q.length := lt_of_le_of_ne hlen heq
      have hrpos : 0 < p.length := List.length_pos.mpr hppos
      have hseg := WF_strict_seg hwf hm (i := p.length - 1) (by omega)
      have h2 : q.take (p.length - 1 + 1) = p := by
        have h1 : p.length - 1 + 1 = p.length := by omega
        rw [h1]
        exact pathLe_take hle
      rw [h2, hpf] at hseg
      simp at hseg

theorem prunePass_keep {src : FS}
    (hpc : ∀ q, fsFind src q ≠ none → ∀ r, r ≠ [] → pathLe r q = true →
      fsFind src r ≠ none) :
    ∀ (ks : List RPath) (fs : FS) (tr : List Act),
    (∀ k ∈ ks, k ≠ []) →
    ∀ p, fsFind src p ≠ none →
    fsFind (prunePass src ks fs tr).1 p = fsFind fs p := by
  intro ks
  induction ks with
  | nil => intro fs tr _ p _; simp [prunePass]
  | cons q rest ih =>
    intro fs tr hk p hp
    have hq0 : q ≠ [] := hk _ (List.mem_cons_self _ _)
    have hk' : ∀ k ∈ rest, k ≠ [] := fun k hm => hk _ (List.mem_cons_of_mem _ hm)
    unfold prunePass pruneStep
    match hfq : fsFind fs q with
    | none => exact ih fs tr hk' p hp
    | some e =>
      match hsq : fsFind src q with
      | some e0 => exact ih fs tr hk' p hp
      | none =>
        match e with
        | .dirE =>
          rw [ih _ _ hk' p hp]
          unfold rmtree
          rw [fsFind_filterKeys]
          have hqp : pathLe q p = false := by
            by_contra hcon
            rw [Bool.not_eq_false] at hcon
            exact absurd hsq (hpc p hp q hq0 hcon)
          rw [hqp]
          simp
        | .fileE c b =>
          rw [ih _ _ hk' p hp]
          unfold unlink
          rw [fsFind_filterKeys]
          have hqp : ¬(p = q) := by
            intro hcon
            subst hcon
            exact hp hsq
          simp [hqp]

theorem prunePass_cover {src : FS} :
    ∀ (ks : List RPath) (fs : FS) (tr : List Act),
    (∀ p, fsFind fs p ≠ none → fsFind src p ≠ none ∨ p ∈ ks) →
    ∀ p, fsFind (prunePass src ks fs tr).1 p ≠ none → fsFind src p ≠ none := by
  intro ks
  induction ks with
  | nil =>
    intro fs tr hcov p hp
    simp [prunePass] at hp
    rcases hcov p hp with h1 | h1
    · exact h1
    · simp at h1
  | cons q rest ih =>
    intro fs tr hcov p hp
    unfold prunePass pruneStep at hp
    match hfq : fsFind fs q with
    | none =>
      rw [hfq] at hp
      refine ih fs tr ?_ p hp
      intro p2 hp2
      rcases hcov p2 hp2 with h1 | h1
      · exact Or.inl h1
      · rcases List.mem_cons.mp h1 with h2 | h2
        · subst h2; exact absurd hfq hp2
        · exact Or.inr h2
    | some e =>
      rw [hfq] at hp
      match hsq : fsFind src q with
      | some e0 =>
        rw [hsq] at hp
        refine ih fs tr ?_ p hp
        intro p2 hp2
        rcases hcov p2 hp2 with h1 | h1
        · exact Or.inl h1
        · rcases List.mem_cons.mp h1 with h2 | h2
          · subst h2; rw [hsq]; exact Or.inl (by simp)
          · exact Or.inr h2
      | none =>
        rw [hsq] at hp
        match e with
        | .dirE =>
          refine ih _ _ ?_ p hp
          intro p2 hp2
          unfold rmtree at hp2
          rw [fsFind_filterKeys] at hp2
          by_cases hng : pathLe q p2
          · rw [hng] at hp2; simp at hp2
          · rw [Bool.not_eq_true] at hng
            rw [hng] at hp2
            simp at hp2
            rcases hcov p2 hp2 with h1 | h1
            · exact Or.inl h1
            · rcases List.mem_cons.mp h1 with h2 | h2
              · subst h2; rw [pathLe_refl] at hng; simp at hng
              · exact Or.inr h2
        | .fileE c b =>
          refine ih _ _ ?_ p hp
          intro p2 hp2
          unfold unlink at hp2
          rw [fsFind_filterKeys] at hp2
          by_cases hng : p2 = q
          · subst hng; simp at hp2
          · simp [hng] at hp2
            rcases hcov p2 hp2 with h1 | h1
            · exact Or.inl h1
            · rcases List.mem_cons.mp h1 with h2 | h2
              · exact absurd h2 hng
              · exact Or.inr h2

theorem fsFind_filterKeys_none {f : RPath → Bool} {fs : FS} {p : RPath}
    (hn : fsFind fs p = none) : fsFind (fsFilterKeys f fs) p = none := by
  rw [fsFind_filterKeys]
  cases hf : f p <;> simp [hn]

theorem prunePass_del {src fs0 : FS}
    (hfile : ∀ p q, (∃ c b, fsFind fs0 p = some (.fileE c b)) →
      pathLe p q = true → q ≠ p → fsFind fs0 q = none) :
    ∀ (ks : List RPath) (fs : FS) (tr : List Act) (fs2 : FS) (tr2 : List Act),
    prunePass src ks fs tr = (fs2, tr2) →
    (∀ p e, fsFind fs p = some e → fsFind fs0 p = some e) →
    (∀ d ∈ tr.filterMap deleteTarget, ∀ rr, pathLe d rr = true →
      fsFind fs rr = none) →
    List.Pairwise (fun a b => pathLe a b = false) (tr.filterMap deleteTarget) →
    (∀ d ∈ tr.filterMap deleteTarget, fsFind fs0 d ≠ none ∧ fsFind src d = none) →
    (∀ p, Act.deletedDir p ∈ tr → fsFind fs0 p = some .dirE) →
    (∀ p, Act.deletedFile p ∈ tr → ∃ c b, fsFind fs0 p = some (.fileE c b)) →
    (∀ p e, fsFind fs2 p = some e → fsFind fs0 p = some e) ∧
    List.Pairwise (fun a b => pathLe a b = false) (tr2.filterMap deleteTarget) ∧
    (∀ d ∈ tr2.filterMap deleteTarget, fsFind fs0 d ≠ none ∧ fsFind src d = none) ∧
    (∀ p, Act.deletedDir p ∈ tr2 → fsFind fs0 p = some .dirE) ∧
    (∀ p, Act.deletedFile p ∈ tr2 → ∃ c b, fsFind fs0 p = some (.fileE c b)) := by
  intro ks
  induction ks with
  | nil =>
    intro fs tr fs2 tr2 hrun hsub hgone hpw hmeta hddir hdfile
    simp [prunePass] at hrun
    rw [← hrun.1, ← hrun.2]
    exact ⟨hsub, hpw, hmeta, hddir, hdfile⟩
  | cons q rest ih =>
    intro fs tr fs2 tr2 hrun hsub hgone hpw hmeta hddir hdfile
    unfold prunePass pruneStep at hrun
    match hfq : fsFind fs q with
    | none =>
      rw [hfq] at hrun
      exact ih fs tr fs2 tr2 hrun hsub hgone hpw hmeta hddir hdfile
    | some e =>
      rw [hfq] at hrun
      match hsq : fsFind src q with
      | some e0 =>
        rw [hsq] at hrun
        exact ih fs tr fs2 tr2 hrun hsub hgone hpw hmeta hddir hdfile
      | none =>
        rw [hsq] at hrun
        have hnotgone : ∀ d ∈ tr.filterMap deleteTarget, pathLe d q = false := by
          intro d hd
          by_contra hcon
          rw [Bool.not_eq_false] at hcon
          rw [hgone d hd q hcon] at hfq
          exact Option.noConfusion hfq
        match e with
        | .dirE =>
          have hrun' : prunePass src rest (rmtree fs q)
              (tr ++ [Act.deletedDir q]) = (fs2, tr2) := hrun
          refine ih _ _ fs2 tr2 hrun' ?_ ?_ ?_ ?_ ?_ ?_
          · intro p2 e2 hp2
            unfold rmtree at hp2
            rw [fsFind_filterKeys] at hp2
            by_cases hng : pathLe q p2
            · rw [hng] at hp2; simp at hp2
            · rw [Bool.not_eq_true] at hng
              rw [hng] at hp2
              simp at hp2
              exact hsub _ _ hp2
          · intro d hd rr hrr
            rw [List.filterMap_append] at hd
            rcases List.mem_append.mp hd with h1 | h1
            · exact fsFind_filterKeys_none (hgone d h1 rr hrr)
            · have hdq : d = q := by simpa [deleteTarget] using h1
              rw [hdq] at hrr
              unfold rmtree
              rw [fsFind_filterKeys, hrr]
              simp
          · rw [List.filterMap_append]
            rw [List.pairwise_append]
            refine ⟨hpw, by simp [deleteTarget], ?_⟩
            intro d hd b hb
            have hbq : b = q := by simpa [deleteTarget] using hb
            rw [hbq]
            exact hnotgone d hd
          · intro d hd
            rw [List.filterMap_append] at hd
            rcases List.mem_append.mp hd with h1 | h1
            · exact hmeta d h1
            · have hdq : d = q := by simpa [deleteTarget] using h1
              rw [hdq]
              exact ⟨by rw [hsub _ _ hfq]; simp, hsq⟩
          · intro p2 hp2
            rcases List.mem_append.mp hp2 with h1 | h1
            · exact hddir _ h1
            · have hpq : p2 = q := by simpa using h1
              rw [hpq]
              exact hsub _ _ hfq
          · intro p2 hp2
            rcases List.mem_append.mp hp2 with h1 | h1
            · exact hdfile _ h1
            · simp at h1
        | .fileE c b =>
          have hrun' : prunePass src rest (unlink fs q)
              (tr ++ [Act.deletedFile q]) = (fs2, tr2) := hrun
          refine ih _ _ fs2 tr2 hrun' ?_ ?_ ?_ ?_ ?_ ?_
          · intro p2 e2 hp2
            unfold unlink at hp2
            rw [fsFind_filterKeys] at hp2
            by_cases hng : p2 = q
            · rw [hng] at hp2; simp at hp2
            · simp [hng] at hp2
              exact hsub _ _ hp2
          · intro d hd rr hrr
            rw [List.filterMap_append] at hd
            rcases List.mem_append.mp hd with h1 | h1
            · exact fsFind_filterKeys_none (hgone d h1 rr hrr)
            · have hdq : d = q := by simpa [deleteTarget] using h1
              rw [hdq] at hrr
              by_cases hrq : rr = q
              · rw [hrq]
                unfold unlink
                rw [fsFind_filterKeys]
                simp
              · have h0 : fsFind fs0 rr = none :=
                  hfile q rr ⟨c, b, hsub _ _ hfq⟩ hrr hrq
                have hfsrr : fsFind fs rr = none := by
                  match hx : fsFind fs rr with
                  | none => rfl
                  | some ex =>
                    rw [hsub _ _ hx] at h0
                    exact Option.noConfusion h0
                exact fsFind_filterKeys_none hfsrr
          · rw [List.filterMap_append]
            rw [List.pairwise_append]
            refine ⟨hpw, by simp [deleteTarget], ?_⟩
            intro d hd b2 hb
            have hbq : b2 = q := by simpa [deleteTarget] using hb
            rw [hbq]
            exact hnotgone d hd
          · intro d hd
            rw [List.filterMap_append] at hd
            rcases List.mem_append.mp hd with h1 | h1
            · exact hmeta d h1
            · have hdq : d = q := by simpa [deleteTarget] using h1
              rw [hdq]
              exact ⟨by rw [hsub _ _ hfq]; simp, hsq⟩
          · intro p2 hp2
            rcases List.mem_append.mp hp2 with h1 | h1
            · exact hddir _ h1
            · simp at h1
          · intro p2 hp2
            rcases List.mem_append.mp hp2 with h1 | h1
            · exact hdfile _ h1
            · have hpq : p2 = q := by simpa using h1
              rw [hpq]
              exact ⟨c, b, hsub _ _ hfq⟩

theorem ensureRoot_fst (ro : Option FS) : (ensureRoot ro).1 = ro.getD [] := by
  cases ro <;> rfl

theorem sync_decomp {h : List Nat → List Nat} {dsz : Nat} {src : FS}
    {ro : Option FS} {fs2 : FS} {tr2 : List Act}
    (hok : sync_directories h dsz src ro = .ok (fs2, tr2)) :
    ∃ fs1 tr1,
      propagate h dsz src src (ensureRoot ro).1 (ensureRoot ro).2 = .ok (fs1, tr1) ∧
      prunePass src (fsKeys fs1) fs1 tr1 = (fs2, tr2) := by
  simp only [sync_directories] at hok
  match hp : propagate h dsz src src (ensureRoot ro).1 (ensureRoot ro).2 with
  | .error er => rw [hp] at hok; simp at hok
  | .ok (fs1, tr1) =>
    rw [hp] at hok
    simp at hok
    exact ⟨fs1, tr1, rfl, hok⟩

theorem propInv_init (src repl : FS) : PropInv src repl repl :=
  fun _ => ⟨fun _ => rfl, fun _ => Or.inl rfl, fun _ _ _ => Or.inl rfl⟩

theorem WF_keys_pairwise_ne {src : FS} (hwf : WF src = true) :
    List.Pairwise (fun x y : RPath × Entry => x.1 ≠ y.1) src := by
  refine (WF_pairwise hwf).imp ?_
  intro a b hab hEq
  rw [← hEq, pathLe_refl] at hab
  exact Bool.noConfusion hab

theorem mem_ancestorsOf_iff {p r : RPath} :
    r ∈ ancestorsOf p ↔ ∃ i, i < p.length ∧ r = p.take (i + 1) := by
  unfold ancestorsOf
  rw [List.mem_map]
  constructor
  · rintro ⟨i, hi, hr⟩
    exact ⟨i, List.mem_range.mp hi, hr.symm⟩
  · rintro ⟨i, hi, hr⟩
    exact ⟨i, List.mem_range.mpr hi, hr.symm⟩

theorem mem_ancestorsOf_ne_nil {p r : RPath} (hr : r ∈ ancestorsOf p) :
    r ≠ [] := by
  obtain ⟨i, hi, hr'⟩ := mem_ancestorsOf_iff.mp hr
  subst hr'
  intro hcon
  have hl := congrArg List.length hcon
  rw [List.length_take] at hl
  simp at hl
  subst hl
  simp at hi

theorem WF_anc {src : FS} (hwf : WF src = true) :
    ∀ pe ∈ src, pe.2 = Entry.dirE →
    ∀ r ∈ ancestorsOf pe.1, fsFind src r = some .dirE := by
  intro pe hm he r hr
  obtain ⟨p, e⟩ := pe
  simp at he
  subst he
  obtain ⟨i, hi, hr'⟩ := mem_ancestorsOf_iff.mp hr
  have hi' : i < p.length := hi
  subst hr'
  show fsFind src (p.take (i + 1)) = some Entry.dirE
  by_cases hlt : i + 1 < p.length
  · exact WF_strict_seg hwf hm hlt
  · have hieq : i + 1 = p.length := by omega
    rw [hieq, List.take_length]
    exact WF_find_of_mem hwf hm

theorem copy2_new {src fs : FS} {p q : RPath} {fs1 : FS}
    (hok : copy2 src p fs q = .ok fs1) (r : RPath) :
    fsFind fs1 r = fsFind fs r ∨ r = q ∨ r = q ++ [p.getLastD ""] := by
  obtain ⟨c, hs⟩ := copy2_src_file hok
  simp only [copy2, hs] at hok
  match hdq : fsFind fs q with
  | some .dirE =>
    simp only [hdq] at hok
    match hd1 : fsFind fs (q ++ [p.getLastD ""]) with
    | some .dirE => simp only [hd1] at hok; exact absurd hok (by simp)
    | some (.fileE c1 b1) =>
      simp only [hd1] at hok
      injection hok with hok
      by_cases hr : r = q ++ [p.getLastD ""]
      · exact Or.inr (Or.inr hr)
      · left
        rw [← hok, fsFind_insert_ne _ _ _ hr]
    | none =>
      simp only [hd1] at hok
      by_cases hpar : parentIsDir fs (q ++ [p.getLastD ""]) = true
      · rw [if_pos hpar] at hok
        injection hok with hok
        by_cases hr : r = q ++ [p.getLastD ""]
        · exact Or.inr (Or.inr hr)
        · left
          rw [← hok, fsFind_insert_ne _ _ _ hr]
      · rw [if_neg hpar] at hok
        exact absurd hok (by simp)
  | some (.fileE c1 b1) =>
    simp only [hdq] at hok
    injection hok with hok
    by_cases hr : r = q
    · exact Or.inr (Or.inl hr)
    · left
      rw [← hok, fsFind_insert_ne _ _ _ hr]
  | none =>
    simp only [hdq] at hok
    by_cases hpar : parentIsDir fs q = true
    · rw [if_pos hpar] at hok
      injection hok with hok
      by_cases hr : r = q
      · exact Or.inr (Or.inl hr)
      · left
        rw [← hok, fsFind_insert_ne _ _ _ hr]
    · rw [if_neg hpar] at hok
      exact absurd hok (by simp)

theorem processItem_keysNE {h : List Nat → List Nat} {dsz : Nat}
    {src fs : FS} {tr : List Act} {p : RPath} {e : Entry} {fs1 : FS}
    {tr1 : List Act} (hok : processItem h dsz src fs tr p e = .ok (fs1, tr1))
    (hp0 : p ≠ []) (hkeys : ∀ q, fsFind fs q ≠ none → q ≠ []) :
    ∀ q, fsFind fs1 q ≠ none → q ≠ [] := by
  intro q hq
  cases e with
  | dirE =>
    simp only [processItem] at hok
    match hf : fsFind fs p with
    | some e0 =>
      simp only [hf] at hok
      simp at hok
      rw [← hok.1]  at hq
      exact hkeys q hq
    | none =>
      simp only [hf] at hok
      match hmk : mkdirParents fs p with
      | .error er => rw [hmk] at hok; simp at hok
      | .ok fsm =>
        rw [hmk] at hok
        simp at hok
        rw [← hok.1] at hq
        have hmk' : mkdirSteps fs (ancestorsOf p) = .ok fsm := hmk
        rcases mkdirSteps_new hmk' q with h1 | h1
        · rw [h1] at hq
          exact hkeys q hq
        · exact mem_ancestorsOf_ne_nil h1.1
  | fileE c r =>
    simp only [processItem] at hok
    match hf : fsFind fs p with
    | none =>
      simp only [hf] at hok
      match hc : copy2 src p fs p with
      | .error er => rw [hc] at hok; simp at hok
      | .ok fsm =>
        rw [hc] at hok
        simp at hok
        rw [← hok.1] at hq
        rcases copy2_new hc q with h1 | h1 | h1
        · rw [h1] at hq; exact hkeys q hq
        · rw [h1]; exact hp0
        · rw [h1]; simp
    | some re =>
      simp only [hf] at hok
      by_cases hl : c.length = entrySize dsz re
      · rw [if_pos hl] at hok
        by_cases hsm : calculate_md5 h src p = calculate_md5 h fs p
        · rw [if_pos hsm] at hok
          simp at hok
          rw [← hok.1] at hq
          exact hkeys q hq
        · rw [if_neg hsm] at hok
          match hc : copy2 src p fs p with
          | .error er => rw [hc] at hok; simp at hok
          | .ok fsm =>
            rw [hc] at hok
            simp at hok
            rw [← hok.1] at hq
            rcases copy2_new hc q with h1 | h1 | h1
            · rw [h1] at hq; exact hkeys q hq
            · rw [h1]; exact hp0
            · rw [h1]; simp
      · rw [if_neg hl] at hok
        match hc : copy2 src p fs p with
        | .error er => rw [hc] at hok; simp at hok
        | .ok fsm =>
          rw [hc] at hok
          simp at hok
          rw [← hok.1] at hq
          rcases copy2_new hc q with h1 | h1 | h1
          · rw [h1] at hq; exact hkeys q hq
          · rw [h1]; exact hp0
          · rw [h1]; simp

theorem propagate_keysNE {h : List Nat → List Nat} {dsz : Nat} {src : FS} :
    ∀ {l : List (RPath × Entry)} {fs : FS} {tr : List Act} {fs1 : FS}
    {tr1 : List Act},
    propagate h dsz src l fs tr = .ok (fs1, tr1) →
    (∀ pe ∈ l, pe.1 ≠ []) →
    (∀ q, fsFind fs q ≠ none → q ≠ []) →
    (∀ q, fsFind fs1 q ≠ none → q ≠ []) := by
  intro l
  induction l with
  | nil =>
    intro fs tr fs1 tr1 hok _ hkeys
    simp [propagate] at hok
    rw [← hok.1]
    exact hkeys
  | cons pe rest ih =>
    intro fs tr fs1 tr1 hok hne hkeys
    obtain ⟨p, e⟩ := pe
    obtain ⟨fsm, trm, hstep, hrest⟩ := propagate_cons hok
    exact ih hrest (fun pe2 hm => hne _ (List.mem_cons_of_mem _ hm))
      (processItem_keysNE hstep (hne _ (List.mem_cons_self _ _)) hkeys)

theorem prunePass_delNE {src : FS} :
    ∀ (ks : List RPath) (fs : FS) (tr : List Act) (fs2 : FS) (tr2 : List Act),
    prunePass src ks fs tr = (fs2, tr2) →
    (∀ q, fsFind fs q ≠ none → q ≠ []) →
    (∀ d ∈ tr.filterMap deleteTarget, d ≠ []) →
    ∀ d ∈ tr2.filterMap deleteTarget, d ≠ [] := by
  intro ks
  induction ks with
  | nil =>
    intro fs tr fs2 tr2 hrun hkeys htr
    simp [prunePass] at hrun
    rw [← hrun.2]
    exact htr
  | cons q rest ih =>
    intro fs tr fs2 tr2 hrun hkeys htr
    unfold prunePass pruneStep at hrun
    match hfq : fsFind fs q with
    | none =>
      rw [hfq] at hrun
      exact ih fs tr fs2 tr2 hrun hkeys htr
    | some e =>
      rw [hfq] at hrun
      match hsq : fsFind src q with
      | some e0 =>
        rw [hsq] at hrun
        exact ih fs tr fs2 tr2 hrun hkeys htr
      | none =>
        rw [hsq] at hrun
        have hq0 : q ≠ [] := hkeys q (by rw [hfq]; simp)
        match e with
        | .dirE =>
          have hrun' : prunePass src rest (rmtree fs q)
              (tr ++ [Act.deletedDir q]) = (fs2, tr2) := hrun
          refine ih _ _ fs2 tr2 hrun' ?_ ?_
          · intro p2 hp2
            unfold rmtree at hp2
            refine hkeys p2 ?_
            rw [fsFind_filterKeys] at hp2
            by_cases hng : (!pathLe q p2) = true
            · rw [hng] at hp2; simp at hp2 ⊢; exact hp2
            · rw [Bool.not_eq_true] at hng
              rw [hng] at hp2
              simp at hp2
          · intro d hd
            rw [List.filterMap_append] at hd
            rcases List.mem_append.mp hd with h1 | h1
            · exact htr d h1
            · have : d = q := by simpa [deleteTarget] using h1
              rw [this]; exact hq0
        | .fileE c b =>
          have hrun' : prunePass src rest (unlink fs q)
              (tr ++ [Act.deletedFile q]) = (fs2, tr2) := hrun
          refine ih _ _ fs2 tr2 hrun' ?_ ?_
          · intro p2 hp2
            unfold unlink at hp2
            refine hkeys p2 ?_
            rw [fsFind_filterKeys] at hp2
            by_cases hng : (!decide (p2 = q)) = true
            · rw [hng] at hp2; simp at hp2 ⊢; exact hp2
            · rw [Bool.not_eq_true] at hng
              rw [hng] at hp2
              simp at hp2
          · intro d hd
            rw [List.filterMap_append] at hd
            rcases List.mem_append.mp hd with h1 | h1
            · exact htr d h1
            · have : d = q := by simpa [deleteTarget] using h1
              rw [this]; exact hq0

theorem sync_spec {h : List Nat → List Nat} {dsz : Nat} {src : FS}
    {ro : Option FS} {fs2 : FS} {tr2 : List Act}
    (hwfS : WF src = true) (hwfR : WF (ro.getD []) = true)
    (hnm : noFileDirMismatch src (ro.getD []) = true)
    (hok : sync_directories h dsz src ro = .ok (fs2, tr2)) :
    (∀ pe ∈ src, DoneP h src fs2 tr2 pe.1 pe.2) ∧
    (∀ p, fsFind fs2 p ≠ none → fsFind src p ≠ none) ∧
    (∀ p, fsFind src p = some .dirE →
      fsFind fs2 p = fsFind (ro.getD []) p ∨ fsFind fs2 p = some .dirE) := by
  obtain ⟨fs1, tr1, hprop, hprune⟩ := sync_decomp hok
  rw [ensureRoot_fst] at hprop
  obtain ⟨hinv1, hpres1, hdone1⟩ := propagate_spec hnm (WF_keys_pairwise_ne hwfS)
    (fun pe hm => ⟨WF_find_of_mem hwfS hm, WF_ne_nil hwfS hm⟩)
    (WF_anc hwfS) (propInv_init src (ro.getD [])) hprop
  have hkeysR : ∀ q, fsFind (ro.getD []) q ≠ none → q ≠ [] := by
    intro q hq
    match hf : fsFind (ro.getD []) q with
    | none => exact absurd hf hq
    | some e => exact WF_ne_nil hwfR (fsFind_mem hf)
  have hkeys1 : ∀ q, fsFind fs1 q ≠ none → q ≠ [] :=
    propagate_keysNE hprop (fun pe hm => WF_ne_nil hwfS hm) hkeysR
  have hksne : ∀ k ∈ fsKeys fs1, k ≠ [] := by
    intro k hk
    exact hkeys1 k (fsFind_ne_none_iff.mpr hk)
  have hkeep0 := prunePass_keep
    (fun qq hqq rr hrr hle => WF_closed hwfS hqq hrr hle)
    (fsKeys fs1) fs1 tr1 hksne
  have hkeep : ∀ p, fsFind src p ≠ none → fsFind fs2 p = fsFind fs1 p := by
    intro p hp
    have hx := hkeep0 p hp
    rw [hprune] at hx
    exact hx
  obtain ⟨dpr, hdpr0⟩ := prunePass_trace src (fsKeys fs1) fs1 tr1
  have hdpr : tr2 = tr1 ++ dpr := by rw [← hdpr0, hprune]
  refine ⟨?_, ?_, ?_⟩
  · intro pe hm
    have hsrcpe := WF_find_of_mem hwfS hm
    have hd := hdone1 pe hm
    obtain ⟨p, e⟩ := pe
    cases e with
    | dirE =>
      show (fsFind fs2 p).isSome = true
      rw [hkeep p (by rw [hsrcpe]; simp)]
      exact hd
    | fileE c r =>
      have hkp := hkeep p (by rw [hsrcpe]; simp)
      rcases hd with ⟨hr, hfind⟩ | ⟨c1, r1, hfind, hlen, hdig, hmS, hmR⟩
      · exact Or.inl ⟨hr, by rw [hkp]; exact hfind⟩
      · right
        have hcc : calculate_md5 h fs1 p = calculate_md5 h fs2 p :=
          calculate_congr hkp.symm
        refine ⟨c1, r1, by rw [hkp]; exact hfind, hlen,
          by rw [← hcc]; exact hdig, ?_, ?_⟩
        · rw [hdpr]; exact List.mem_append_left _ hmS
        · rw [← hcc, hdpr]; exact List.mem_append_left _ hmR
  · have hcov : ∀ p, fsFind fs1 p ≠ none → fsFind src p ≠ none ∨ p ∈ fsKeys fs1 :=
      fun p hp => Or.inr (fsFind_ne_none_iff.mp hp)
    intro p hp
    have hx := prunePass_cover (fsKeys fs1) fs1 tr1 hcov p
    rw [hprune] at hx
    exact hx hp
  · intro p hp
    have hx := (hinv1 p).2.1 hp
    have hk := hkeep p (by rw [hp]; simp)
    rcases hx with h1 | h1
    · left; rw [hk]; exact h1
    · right; rw [hk]; exact h1

theorem propagate_settled {h : List Nat → List Nat} {dsz : Nat}
    {src fs : FS} :
    ∀ (l : List (RPath × Entry)),
    (∀ pe ∈ l, pe.2 = Entry.dirE → (fsFind fs pe.1).isSome = true) →
    (∀ pe ∈ l, ∀ c r, pe.2 = Entry.fileE c r →
      ∃ c1 r1, fsFind fs pe.1 = some (.fileE c1 r1) ∧ c1.length = c.length ∧
        calculate_md5 h src pe.1 = calculate_md5 h fs pe.1) →
    ∀ (tr : List Act),
    ∃ d, propagate h dsz src l fs tr = .ok (fs, tr ++ d) ∧
      ∀ a ∈ d, isMutation a = false := by
  intro l
  induction l with
  | nil =>
    intro _ _ tr
    exact ⟨[], by simp [propagate], by simp⟩
  | cons pe rest ih =>
    intro hdir hfile tr
    obtain ⟨p, e⟩ := pe
    have ihr := ih (fun pe2 hm => hdir _ (List.mem_cons_of_mem _ hm))
      (fun pe2 hm => hfile _ (List.mem_cons_of_mem _ hm))
    cases e with
    | dirE =>
      have hfd : (fsFind fs p).isSome = true :=
        hdir _ (List.mem_cons_self _ _) rfl
      obtain ⟨e0, he0⟩ := Option.isSome_iff_exists.mp hfd
      have hstep : processItem h dsz src fs tr p .dirE = .ok (fs, tr) := by
        simp [processItem, he0]
      obtain ⟨d, hd, hmut⟩ := ihr tr
      refine ⟨d, ?_, hmut⟩
      unfold propagate
      simp only [hstep]
      exact hd
    | fileE c r =>
      obtain ⟨c1, r1, hf1, hlen, hcalc⟩ :=
        hfile _ (List.mem_cons_self _ _) c r rfl
      have hstep : processItem h dsz src fs tr p (.fileE c r) =
          .ok (fs, tr ++ [.hashedS p (calculate_md5 h src p).isSome,
            .hashedR p (calculate_md5 h fs p).isSome]) := by
        simp only [processItem, hf1]
        rw [if_pos (by simp [entrySize, hlen])]
        rw [if_pos hcalc]
      obtain ⟨d, hd, hmut⟩ := ihr (tr ++ [.hashedS p (calculate_md5 h src p).isSome,
        .hashedR p (calculate_md5 h fs p).isSome])
      refine ⟨[.hashedS p (calculate_md5 h src p).isSome,
        .hashedR p (calculate_md5 h fs p).isSome] ++ d, ?_, ?_⟩
      · unfold propagate
        simp only [hstep]
        rw [hd, List.append_assoc]
      · intro a ha
        rcases List.mem_append.mp ha with h1 | h1
        · rcases List.mem_cons.mp h1 with h2 | h2
          · rw [h2]; rfl
          · rcases List.mem_cons.mp h2 with h3 | h3
            · rw [h3]; rfl
            · simp at h3
        · exact hmut a h1

theorem prunePass_present {src : FS} :
    ∀ (ks : List RPath), (∀ k ∈ ks, fsFind src k ≠ none) →
    ∀ (fs : FS) (tr : List Act), prunePass src ks fs tr = (fs, tr) := by
  intro ks
  induction ks with
  | nil => intro _ fs tr; rfl
  | cons q rest ih =>
    intro hk fs tr
    have hq := hk _ (List.mem_cons_self _ _)
    have ihr := ih (fun k hm => hk _ (List.mem_cons_of_mem _ hm))
    unfold prunePass pruneStep
    match hfq : fsFind fs q with
    | none => exact ihr fs tr
    | some e =>
      match hsq : fsFind src q with
      | none => exact absurd hsq hq
      | some e0 => exact ihr fs tr

theorem sync_second_run {h : List Nat → List Nat} {dsz : Nat} {src : FS}
    {ro : Option FS} {fsA : FS} {trA : List Act}
    (hwfS : WF src = true) (hwfR : WF (ro.getD []) = true)
    (hnm : noFileDirMismatch src (ro.getD []) = true)
    (hok : sync_directories h dsz src ro = .ok (fsA, trA)) :
    rerunClean h dsz src fsA = true := by
  obtain ⟨hdone, hcov, _⟩ := sync_spec hwfS hwfR hnm hok
  have hdir : ∀ pe ∈ src, pe.2 = Entry.dirE →
      (fsFind fsA pe.1).isSome = true := by
    intro pe hm he
    have hd := hdone pe hm
    rw [he] at hd
    exact hd
  have hfile : ∀ pe ∈ src, ∀ c r, pe.2 = Entry.fileE c r →
      ∃ c1 r1, fsFind fsA pe.1 = some (.fileE c1 r1) ∧ c1.length = c.length ∧
        calculate_md5 h src pe.1 = calculate_md5 h fsA pe.1 := by
    intro pe hm c r he
    have hd := hdone pe hm
    rw [he] at hd
    have hsrcpe := WF_find_of_mem hwfS hm
    rw [he] at hsrcpe
    rcases hd with ⟨hr, hfind⟩ | ⟨c1, r1, hfind, hlen, hdig, _, _⟩
    · subst hr
      refine ⟨c, false, hfind, rfl, ?_⟩
      unfold calculate_md5
      rw [hsrcpe, hfind]
    · exact ⟨c1, r1, hfind, hlen, hdig⟩
  obtain ⟨d, hrun2, hmut⟩ := @propagate_settled h dsz src fsA src hdir hfile []
  have hprune2 : prunePass src (fsKeys fsA) fsA ([] ++ d) = (fsA, [] ++ d) :=
    prunePass_present _ (fun k hk => hcov k (fsFind_ne_none_iff.mpr hk)) _ _
  have hrun : sync_directories h dsz src (some fsA) = .ok (fsA, [] ++ d) := by
    simp only [sync_directories, ensureRoot]
    simp only [hrun2]
    rw [hprune2]
  unfold rerunClean
  rw [hrun]
  show (decide (fsA = fsA) && (([] ++ d).all (fun a => !isMutation a))) = true
  rw [Bool.and_eq_true]
  constructor
  · exact decide_eq_true rfl
  · rw [List.all_eq_true]
    intro a ha
    rw [List.nil_append] at ha
    rw [hmut a ha]
    rfl

theorem calc_of_file {h : List Nat → List Nat} {fs : FS} {p : RPath}
    {c : List Nat} {r : Bool} (hf : fsFind fs p = some (.fileE c r)) :
    calculate_md5 h fs p = if r then none else some (h c) := by
  unfold calculate_md5
  rw [hf]
  cases r <;> rfl

/-- C3: for a readable source file whose replica path exists as a readable
file, the per-file step of the propagation pass (the body of the loop in
`sync_directories`, lines 57-67) recopies without computing any digest when
the sizes differ, computes both digests when the sizes match and recopies
exactly when the digests differ, and leaves a file with equal size and equal
digest untouched. -/
theorem claim3_change_detection {h : List Nat → List Nat} {dsz : Nat}
    {src fs : FS} {tr : List Act} {p : RPath} {c c1 : List Nat}
    (hs : fsFind src p = some (.fileE c false))
    (hf : fsFind fs p = some (.fileE c1 false)) :
    processItem h dsz src fs tr p (.fileE c false) =
      if c.length = c1.length then
        (if h c = h c1 then
          .ok (fs, tr ++ [.hashedS p true, .hashedR p true])
        else
          .ok (fsInsert fs p (.fileE c false),
            tr ++ [.hashedS p true, .hashedR p true, .updated p]))
      else
        .ok (fsInsert fs p (.fileE c false), tr ++ [.updatedSize p]) := by
  have hcs : calculate_md5 h src p = some (h c) := by
    rw [calc_of_file hs]; rfl
  have hcf : calculate_md5 h fs p = some (h c1) := by
    rw [calc_of_file hf]; rfl
  have hcp : copy2 src p fs p = .ok (fsInsert fs p (.fileE c false)) := by
    simp only [copy2, hs, hf]
  simp only [processItem, hf]
  by_cases hl : c.length = c1.length
  · rw [if_pos (show c.length = entrySize dsz (.fileE c1 false) from hl),
      if_pos hl]
    by_cases hd : h c = h c1
    · rw [if_pos (by rw [hcs, hcf, hd]), if_pos hd, hcs, hcf]
      rfl
    · rw [if_neg (by rw [hcs, hcf]; simp [hd]), if_neg hd, hcp, hcs, hcf]
      rfl
  · rw [if_neg (show ¬c.length = entrySize dsz (.fileE c1 false) from hl),
      if_neg hl, hcp]

/-- Witness for C3: size-differ branch at a concrete input (sizes 1 and 2):
the file is recopied with the size-change log line and no digest event. -/
theorem claim3_witness :
    processItem (fun c : List Nat => c) 0 [(["f"], Entry.fileE [1] false)]
      [(["f"], Entry.fileE [2, 3] false)] [] ["f"] (.fileE [1] false) =
      .ok ([(["f"], Entry.fileE [1] false)], [Act.updatedSize ["f"]]) := by
  have hx := @claim3_change_detection (fun c : List Nat => c) 0
    [(["f"], Entry.fileE [1] false)] [(["f"], Entry.fileE [2, 3] false)]
    [] ["f"] [1] [2, 3] rfl rfl
  exact hx.trans rfl

/-- C4 counterexample: with same-size files, a digest-computation failure on
the replica side (`hashedR ["f"] false` — the logged MD5 error) does not
leave the file untouched: `None != source_md5` is true, so the replica file
is overwritten with the source content. -/
theorem claim4_counterexample :
    sync_directories (fun c => c) 0 [(["f"], Entry.fileE [1, 2] false)]
      (some [(["f"], Entry.fileE [3, 4] true)]) =
      .ok ([(["f"], Entry.fileE [1, 2] false)],
        [Act.hashedS ["f"] true, Act.hashedR ["f"] false,
          Act.updated ["f"]]) := rfl

/-- C4 (amended): for a same-size source/replica file pair, each failed
digest computation is logged; the replica file is left untouched (and the
pass continues) only when BOTH digest computations fail.  When exactly one
side fails, the `None != digest` comparison makes the file count as changed
and it is recopied: the replica is overwritten when only the replica side
failed, and the pass aborts with the uncaught copy IOError when the source
is unreadable. -/
theorem claim4_digest_failure {h : List Nat → List Nat} {dsz : Nat}
    {c c1 : List Nat} (hl : c.length = c1.length) :
    sync_directories h dsz [(["f"], Entry.fileE c true)]
      (some [(["f"], Entry.fileE c1 true)]) =
      .ok ([(["f"], Entry.fileE c1 true)],
        [Act.hashedS ["f"] false, Act.hashedR ["f"] false]) ∧
    sync_directories h dsz [(["f"], Entry.fileE c false)]
      (some [(["f"], Entry.fileE c1 true)]) =
      .ok ([(["f"], Entry.fileE c false)],
        [Act.hashedS ["f"] true, Act.hashedR ["f"] false,
          Act.updated ["f"]]) ∧
    sync_directories h dsz [(["f"], Entry.fileE c true)]
      (some [(["f"], Entry.fileE c1 false)]) =
      .error (.copyErr ["f"]) := by
  refine ⟨?_, ?_, ?_⟩ <;>
    simp [sync_directories, ensureRoot, propagate, processItem, copy2,
      calculate_md5, fsFind, entrySize, hl, prunePass, pruneStep, fsKeys,
      fsInsert]

/-- Witness for C4 (amended) at concrete contents [1] and [2]. -/
theorem claim4_witness :
    sync_directories (fun c : List Nat => c) 0 [(["f"], Entry.fileE [1] true)]
      (some [(["f"], Entry.fileE [2] true)]) =
      .ok ([(["f"], Entry.fileE [2] true)],
        [Act.hashedS ["f"] false, Act.hashedR ["f"] false]) :=
  (@claim4_digest_failure (fun c : List Nat => c) 0 [1] [2] (by decide)).1

/-- C5 counterexample: one unreadable source file does not stay a soft
failure: because `shutil.copy2` is not guarded, the pass aborts with its
IOError and the unrelated readable file `b` is never reconciled (the run
returns an error and nothing was copied). -/
theorem claim5_counterexample :
    sync_directories (fun c => c) 0
      [(["a"], Entry.fileE [1] true), (["b"], Entry.fileE [2] false)]
      (some []) = .error (.copyErr ["a"]) := rfl

/-- C5 (amended): only failures of BOTH digest computations are per-file
soft failures.  When an unreadable source file `a` has a same-size replica
that is also unreadable, the two digest errors are logged, `a` is skipped,
and the pass still reconciles the unrelated file `b`.  In every other case
the unreadable source file aborts the whole pass with the uncaught IOError
of `shutil.copy2`, so `b` is never processed: when `a`'s replica is absent,
when it is a same-size readable file (then `None != replica_md5` forces the
recopy), and when it has a different size. -/
theorem claim5_soft_failure_isolation {h : List Nat → List Nat} {dsz : Nat}
    {c c1 c2 cg : List Nat} (b : Bool)
    (hl : c.length = c1.length) (hne : c.length ≠ c2.length) :
    sync_directories h dsz
      [(["a"], Entry.fileE c true), (["b"], Entry.fileE cg false)]
      (some [(["a"], Entry.fileE c1 true)]) =
      .ok ([(["a"], Entry.fileE c1 true), (["b"], Entry.fileE cg false)],
        [Act.hashedS ["a"] false, Act.hashedR ["a"] false,
          Act.copiedNew ["b"]]) ∧
    sync_directories h dsz
      [(["a"], Entry.fileE c true), (["b"], Entry.fileE cg false)]
      (some []) = .error (.copyErr ["a"]) ∧
    sync_directories h dsz
      [(["a"], Entry.fileE c true), (["b"], Entry.fileE cg false)]
      (some [(["a"], Entry.fileE c1 false)]) = .error (.copyErr ["a"]) ∧
    sync_directories h dsz
      [(["a"], Entry.fileE c true), (["b"], Entry.fileE cg false)]
      (some [(["a"], Entry.fileE c2 b)]) = .error (.copyErr ["a"]) := by
  refine ⟨?_, ?_, ?_, ?_⟩
  · simp [sync_directories, ensureRoot, propagate, processItem, copy2,
      calculate_md5, fsFind, entrySize, hl, prunePass, pruneStep,
      fsKeys, fsInsert, parentIsDir]
  · simp [sync_directories, ensureRoot, propagate, processItem, copy2,
      calculate_md5, fsFind, entrySize, prunePass, pruneStep,
      fsKeys, fsInsert, parentIsDir]
  · simp [sync_directories, ensureRoot, propagate, processItem, copy2,
      calculate_md5, fsFind, entrySize, hl, prunePass, pruneStep,
      fsKeys, fsInsert, parentIsDir]
  · simp [sync_directories, ensureRoot, propagate, processItem, copy2,
      calculate_md5, fsFind, entrySize, hne, prunePass, pruneStep,
      fsKeys, fsInsert, parentIsDir]

/-- Witness for C5 (amended) at concrete contents, discharging both size
hypotheses ([1] and [3] have equal length, [1] and [5, 6] do not). -/
theorem claim5_witness :
    sync_directories (fun c : List Nat => c) 0
      [(["a"], Entry.fileE [1] true), (["b"], Entry.fileE [2] false)]
      (some [(["a"], Entry.fileE [3] true)]) =
      .ok ([(["a"], Entry.fileE [3] true), (["b"], Entry.fileE [2] false)],
        [Act.hashedS ["a"] false, Act.hashedR ["a"] false,
          Act.copiedNew ["b"]]) :=
  (@claim5_soft_failure_isolation (fun c : List Nat => c) 0 [1] [3] [5, 6]
    [2] false (by decide) (by decide)).1

/-- C6 counterexample: at a path where the source has a directory and the
replica a file, the pass removes nothing and materializes nothing: the
propagation loop sees `replica_item.exists()` and skips the mkdir, and the
pruning loop sees `source_item.exists()` and keeps the file, so the run ends
with the conflicting replica file still in place and an empty trace. -/
theorem claim6_counterexample :
    sync_directories (fun c => c) 0 [(["d"], Entry.dirE)]
      (some [(["d"], Entry.fileE [1] false)]) =
      .ok ([(["d"], Entry.fileE [1] false)], []) := rfl

/-- C6 (amended): a source-directory/replica-file type mismatch is not
reconciled at all: for every content and readability flag of the conflicting
replica file, the pass completes with zero mutations and leaves the replica
file in place; the source's directory is never materialized. -/
theorem claim6_mismatch_unreconciled (h : List Nat → List Nat) (dsz : Nat)
    (c : List Nat) (b : Bool) :
    sync_directories h dsz [(["d"], Entry.dirE)]
      (some [(["d"], Entry.fileE c b)]) =
      .ok ([(["d"], Entry.fileE c b)], []) := by
  simp [sync_directories, ensureRoot, propagate, processItem, fsFind,
    prunePass, pruneStep, fsKeys]

/-- C8 counterexample: the `try` in `main` wraps the whole `while` loop, so
after a pass raises an unexpected error the loop does not continue with the
next scheduled pass: the error is logged and the loop ends, the following
`passOk` schedule slot is never run. -/
theorem claim8_counterexample :
    mainLoop [PassResult.passErr, PassResult.passOk] =
      [LoopEvent.loggedError] := rfl

/-- C8 (amended): an unexpected error during a pass is caught and logged,
but it terminates the run loop (a clean logged exit of the process, not a
crash, and not a continuation): after any number of completed passes, an
erroring pass yields exactly one logged error and no further pass runs, and
an operator interrupt likewise stops the loop with a clean logged exit. -/
theorem claim8_error_stops_loop (pre rs : List PassResult)
    (hpre : ∀ x ∈ pre, x = PassResult.passOk) :
    mainLoop (pre ++ PassResult.passErr :: rs) =
      List.replicate pre.length LoopEvent.completed ++
        [LoopEvent.loggedError] ∧
    mainLoop (pre ++ PassResult.passInterrupt :: rs) =
      List.replicate pre.length LoopEvent.completed ++
        [LoopEvent.loggedInterrupt] := by
  induction pre with
  | nil => exact ⟨rfl, rfl⟩
  | cons x xs ih =>
    have hx : x = PassResult.passOk := hpre _ (List.mem_cons_self _ _)
    subst hx
    obtain ⟨h1, h2⟩ := ih (fun y hy => hpre _ (List.mem_cons_of_mem _ hy))
    constructor
    · show LoopEvent.completed :: mainLoop (xs ++ PassResult.passErr :: rs) = _
      rw [h1]
      simp [List.replicate_succ]
    · show LoopEvent.completed ::
        mainLoop (xs ++ PassResult.passInterrupt :: rs) = _
      rw [h2]
      simp [List.replicate_succ]

/-- Witness for C8 (amended): one completed pass, then an error. -/
theorem claim8_witness :
    mainLoop [PassResult.passOk, PassResult.passErr] =
      List.replicate 1 LoopEvent.completed ++ [LoopEvent.loggedError] :=
  (claim8_error_stops_loop [PassResult.passOk] [] (by decide)).1

/-- C9: an invalid source root makes the entry point fail with the startup
error before any pass runs (for every replica flag and schedule); a missing
replica root is not an error — the argument check only logs a warning, and
the pass itself creates the replica root (with `parents=True`, so missing
parent directories are created too) as its first action. -/
theorem claim9_startup_checks (b : Bool) (ps : List PassResult) (r : FS) :
    mainEntry false b ps = .error .sourceInvalid ∧
    argCheck true false = .ok [StartEvent.warnReplicaMissing] ∧
    argCheck true true = .ok [] ∧
    ensureRoot none = ([], [Act.createdRoot]) ∧
    ensureRoot (some r) = (r, []) :=
  ⟨rfl, rfl, rfl, rfl, rfl⟩

/-- C1: a pass of `sync_directories` that returns without error, with no
per-file soft failure (no failed digest computation logged in the trace),
no source/replica type mismatch, well-formed tree listings and a
collision-free digest function, leaves the replica an exact mirror of the
source: every source entry has a structurally identical entry at the same
relative path (same type; same content, readable, for files), and every
entry under the replica root has a corresponding source entry. -/
theorem claim1_mirror_after_pass {h : List Nat → List Nat} {dsz : Nat}
    {src : FS} {ro : Option FS} {fs2 : FS} {tr2 : List Act}
    (hinj : Function.Injective h)
    (hwfS : WF src = true) (hwfR : WF (ro.getD []) = true)
    (hnm : noMismatch src (ro.getD []) = true)
    (hok : sync_directories h dsz src ro = .ok (fs2, tr2))
    (hsoft : tr2.all (fun a => !isHashFail a) = true) :
    mirrors src fs2 = true := by
  obtain ⟨hdone, hcov, hdirinv⟩ :=
    sync_spec hwfS hwfR (noMismatch_to_noFileDir hnm) hok
  have hsoft' : ∀ a ∈ tr2, isHashFail a = false := by
    intro a ha
    have hx := List.all_eq_true.mp hsoft a ha
    simpa using hx
  unfold mirrors
  rw [Bool.and_eq_true]
  constructor
  · rw [List.all_eq_true]
    intro pe hm
    have hd := hdone pe hm
    have hsrcpe := WF_find_of_mem hwfS hm
    obtain ⟨p, e⟩ := pe
    cases e with
    | dirE =>
      show entryMirrored fs2 (p, Entry.dirE) = true
      unfold entryMirrored
      refine (isDirAt_iff fs2 p).mpr ?_
      have hdS : (fsFind fs2 p).isSome = true := hd
      rcases hdirinv p hsrcpe with hrep | hdir2
      · have htok := noMismatch_spec hnm hsrcpe
        rw [hrep] at hdS
        rw [hrep]
        match hx : fsFind (ro.getD []) p with
        | none => rw [hx] at hdS; simp at hdS
        | some .dirE => rfl
        | some (.fileE cc bb) =>
          rw [hx] at htok
          simp [typeOkAt] at htok
      · exact hdir2
    | fileE c r =>
      show entryMirrored fs2 (p, Entry.fileE c r) = true
      rcases hd with ⟨hr, hfind⟩ | ⟨c1, r1, hfind, hlen, hdig, hmS, hmR⟩
      · unfold entryMirrored
        simp only [hfind]
        simp
      · have hxS := hsoft' _ hmS
        have hxR := hsoft' _ hmR
        simp only [isHashFail, Bool.not_eq_false'] at hxS hxR
        have hcsrc : calculate_md5 h src p = if r then none else some (h c) :=
          calc_of_file hsrcpe
        have hcrep : calculate_md5 h fs2 p =
            if r1 then none else some (h c1) := calc_of_file hfind
        have hr : r = false := by
          cases r with
          | false => rfl
          | true => rw [hcsrc] at hxS; simp at hxS
        have hr1 : r1 = false := by
          cases r1 with
          | false => rfl
          | true => rw [hcrep] at hxR; simp at hxR
        subst hr
        subst hr1
        rw [hcsrc, hcrep] at hdig
        simp at hdig
        have hcc : c = c1 := hinj hdig
        subst hcc
        unfold entryMirrored
        simp only [hfind]
        simp
  · rw [List.all_eq_true]
    intro pe hm
    obtain ⟨p, e⟩ := pe
    have hne := hcov p (fsFind_ne_none_of_mem hm)
    show (fsFind src p).isSome = true
    match hx : fsFind src p with
    | none => exact absurd hx hne
    | some e0 => rfl

/-- Witness for C1: a source with a directory `a` and a file `a/f`, a
replica holding only a stale file `z`; the pass creates the directory,
copies the file, deletes the stale entry, and the mirror check holds. -/
theorem claim1_witness :
    mirrors [(["a"], Entry.dirE), (["a", "f"], Entry.fileE [5] false)]
      [(["a"], Entry.dirE), (["a", "f"], Entry.fileE [5] false)] = true :=
  @claim1_mirror_after_pass (fun c => c) 0
    [(["a"], Entry.dirE), (["a", "f"], Entry.fileE [5] false)]
    (some [(["z"], Entry.fileE [9] false)])
    [(["a"], Entry.dirE), (["a", "f"], Entry.fileE [5] false)]
    [Act.createdDir ["a"], Act.copiedNew ["a", "f"], Act.deletedFile ["z"]]
    (fun a b hab => hab) (by decide) (by decide) (by decide) rfl (by decide)

/-- C2 counterexample: source holds a file `f` where the replica holds a
directory `f`.  The sizes differ (the directory inode size is 4096; the
branch taken — and the final state — is the same for any inode size), so
`shutil.copy2` copies the file INTO the replica directory, and the pruning
pass then deletes that copy, returning the replica to its initial state.
Hence this very run is its own second run, and it performs two mutations,
so running `sync_directories` twice with an unchanged source does not make
the second run mutation-free: `rerunClean` is false at the state the first
run ends in. -/
theorem claim2_counterexample :
    sync_directories (fun c => c) 4096 [(["f"], Entry.fileE [7] false)]
      (some [(["f"], Entry.dirE)]) =
      .ok ([(["f"], Entry.dirE)],
        [Act.updatedSize ["f"], Act.deletedFile ["f", "f"]]) ∧
    rerunClean (fun c => c) 4096 [(["f"], Entry.fileE [7] false)]
      [(["f"], Entry.dirE)] = false :=
  ⟨rfl, rfl⟩

/-- C2 (amended): provided the first run completes without error, the tree
listings are well-formed and no relative path holds a file in the source
where the replica holds a directory (the opposite orientation, a source
directory over a replica file, is a per-pass no-op and need not be
excluded), a second run of `sync_directories` on the same roots with an
unchanged source returns the same replica state and performs zero
filesystem mutations (its trace holds only digest computations). -/
theorem claim2_idempotent {h : List Nat → List Nat} {dsz : Nat} {src : FS}
    {ro : Option FS} {fsA : FS} {trA : List Act}
    (hwfS : WF src = true) (hwfR : WF (ro.getD []) = true)
    (hnm : noFileDirMismatch src (ro.getD []) = true)
    (hok : sync_directories h dsz src ro = .ok (fsA, trA)) :
    rerunClean h dsz src fsA = true :=
  sync_second_run hwfS hwfR hnm hok

/-- Witness for C2 (amended): a single readable source file copied into an
initially empty replica; the second run is clean. -/
theorem claim2_witness :
    rerunClean (fun c : List Nat => c) 0 [(["f"], Entry.fileE [1] false)]
      [(["f"], Entry.fileE [1] false)] = true :=
  @claim2_idempotent (fun c : List Nat => c) 0
    [(["f"], Entry.fileE [1] false)] (some [])
    [(["f"], Entry.fileE [1] false)] [Act.copiedNew ["f"]]
    (by decide) (by decide) (by decide) rfl

/-- C7: the pruning pass over a well-formed replica listing removes every
entry whose relative path is absent from the source (no path absent from
the source survives, so descendants of deleted directories are gone too);
each deletion action targets a path that existed at the start of the pass
and is absent from the source, a directory is removed by one recursive
rmtree and a file by one unlink (the action records the entry's type), and
the traversal never deletes the same path twice nor visits a path below an
already-deleted directory: no deletion target is a leading segment of a
later one. -/
theorem claim7_prune_completeness {src fs fs2 : FS} {tr2 : List Act}
    (hwf : WF fs = true)
    (hrun : prunePass src (fsKeys fs) fs [] = (fs2, tr2)) :
    (∀ p, fsFind fs2 p ≠ none → fsFind src p ≠ none) ∧
    List.Pairwise (fun a b => pathLe a b = false)
      (tr2.filterMap deleteTarget) ∧
    (∀ d ∈ tr2.filterMap deleteTarget,
      fsFind fs d ≠ none ∧ fsFind src d = none) ∧
    (∀ p, Act.deletedDir p ∈ tr2 → fsFind fs p = some .dirE) ∧
    (∀ p, Act.deletedFile p ∈ tr2 →
      ∃ c b, fsFind fs p = some (.fileE c b)) := by
  have hdel := prunePass_del
    (fun p q hp hle hne => WF_file_no_desc hwf hp hle hne)
    (fsKeys fs) fs [] fs2 tr2 hrun (fun p e hp => hp) (by simp) (by simp)
    (by simp) (by simp) (by simp)
  refine ⟨?_, hdel.2.1, hdel.2.2.1, hdel.2.2.2.1, hdel.2.2.2.2⟩
  intro p hp
  have hcov : ∀ q, fsFind fs q ≠ none → fsFind src q ≠ none ∨ q ∈ fsKeys fs :=
    fun q hq => Or.inr (fsFind_ne_none_iff.mp hq)
  have hx := prunePass_cover (fsKeys fs) fs [] hcov p
  rw [hrun] at hx
  exact hx hp

/-- Witness for C7: replica holds `d` and `d/x`, the source is empty; the
pass removes `d` with one recursive deletion and never visits `d/x`. -/
theorem claim7_witness :
    List.Pairwise (fun a b => pathLe a b = false)
      ([Act.deletedDir ["d"]].filterMap deleteTarget) :=
  (@claim7_prune_completeness []
    [(["d"], Entry.dirE), (["d", "x"], Entry.fileE [1] false)]
    [] [Act.deletedDir ["d"]] (by decide) rfl).2.1

theorem processItem_no_del {h : List Nat → List Nat} {dsz : Nat}
    {src fs : FS} {tr : List Act} {p : RPath} {e : Entry} {fs1 : FS}
    {tr1 : List Act}
    (hok : processItem h dsz src fs tr p e = .ok (fs1, tr1)) :
    tr1.filterMap deleteTarget = tr.filterMap deleteTarget := by
  cases e with
  | dirE =>
    simp only [processItem] at hok
    match hf : fsFind fs p with
    | some e0 =>
      simp only [hf] at hok
      simp at hok
      rw [← hok.2]
    | none =>
      simp only [hf] at hok
      match hmk : mkdirParents fs p with
      | .error er => rw [hmk] at hok; simp at hok
      | .ok fsm =>
        rw [hmk] at hok
        simp at hok
        rw [← hok.2]
        simp [deleteTarget]
  | fileE c r =>
    simp only [processItem] at hok
    match hf : fsFind fs p with
    | none =>
      simp only [hf] at hok
      match hc : copy2 src p fs p with
      | .error er => rw [hc] at hok; simp at hok
      | .ok fsm =>
        rw [hc] at hok
        simp at hok
        rw [← hok.2]
        simp [deleteTarget]
    | some re =>
      simp only [hf] at hok
      by_cases hl : c.length = entrySize dsz re
      · rw [if_pos hl] at hok
        by_cases hsm : calculate_md5 h src p = calculate_md5 h fs p
        · rw [if_pos hsm] at hok
          simp at hok
          rw [← hok.2]
          simp [deleteTarget]
        · rw [if_neg hsm] at hok
          match hc : copy2 src p fs p with
          | .error er => rw [hc] at hok; simp at hok
          | .ok fsm =>
            rw [hc] at hok
            simp at hok
            rw [← hok.2]
            simp [deleteTarget]
      · rw [if_neg hl] at hok
        match hc : copy2 src p fs p with
        | .error er => rw [hc] at hok; simp at hok
        | .ok fsm =>
          rw [hc] at hok
          simp at hok
          rw [← hok.2]
          simp [deleteTarget]

theorem propagate_no_del {h : List Nat → List Nat} {dsz : Nat} {src : FS} :
    ∀ {l : List (RPath × Entry)} {fs : FS} {tr : List Act} {fs1 : FS}
    {tr1 : List Act},
    propagate h dsz src l fs tr = .ok (fs1, tr1) →
    tr1.filterMap deleteTarget = tr.filterMap deleteTarget := by
  intro l
  induction l with
  | nil =>
    intro fs tr fs1 tr1 hok
    simp [propagate] at hok
    rw [← hok.2]
  | cons pe rest ih =>
    intro fs tr fs1 tr1 hok
    obtain ⟨p, e⟩ := pe
    obtain ⟨fsm, trm, hstep, hrest⟩ := propagate_cons hok
    rw [ih hrest, processItem_no_del hstep]

/-- C10: on every run of `sync_directories` over well-formed listings that
completes, the replica root exists afterward (the function ensures it at
the start and returns a tree for it) and is never a deletion candidate:
every deletion action in the trace targets a strict descendant of the
replica root (a nonempty relative path) — even when the source tree is
empty — and when the root was absent the run's first action created it. -/
theorem claim10_root_never_deleted {h : List Nat → List Nat} {dsz : Nat}
    {src : FS} {ro : Option FS} {fs2 : FS} {tr2 : List Act}
    (hwfS : WF src = true) (hwfR : WF (ro.getD []) = true)
    (hok : sync_directories h dsz src ro = .ok (fs2, tr2)) :
    (∀ p ∈ tr2.filterMap deleteTarget, p ≠ []) ∧
    (ro = none → Act.createdRoot ∈ tr2) := by
  obtain ⟨fs1, tr1, hprop, hprune⟩ := sync_decomp hok
  have hprop' := hprop
  rw [ensureRoot_fst] at hprop'
  have hkeysR : ∀ q, fsFind (ro.getD []) q ≠ none → q ≠ [] := by
    intro q hq
    match hf : fsFind (ro.getD []) q with
    | none => exact absurd hf hq
    | some e => exact WF_ne_nil hwfR (fsFind_mem hf)
  have hkeys1 : ∀ q, fsFind fs1 q ≠ none → q ≠ [] :=
    propagate_keysNE hprop' (fun pe hm => WF_ne_nil hwfS hm) hkeysR
  have htr1 : ∀ d ∈ tr1.filterMap deleteTarget, d ≠ [] := by
    rw [propagate_no_del hprop]
    cases ro <;> simp [ensureRoot, deleteTarget]
  constructor
  · exact prunePass_delNE (fsKeys fs1) fs1 tr1 fs2 tr2 hprune hkeys1 htr1
  · intro hro
    subst hro
    obtain ⟨d1, hd1⟩ := propagate_trace hprop
    obtain ⟨d2, hd2⟩ := prunePass_trace src (fsKeys fs1) fs1 tr1
    rw [hprune] at hd2
    have hd2' : tr2 = tr1 ++ d2 := hd2
    rw [hd2', hd1]
    show Act.createdRoot ∈ ((ensureRoot none).2 ++ d1) ++ d2
    refine List.mem_append_left _ (List.mem_append_left _ ?_)
    show Act.createdRoot ∈ [Act.createdRoot]
    simp

/-- Witness for C10: empty source, absent replica root: the run creates the
root and its trace contains the creation event (and no deletion of the
root). -/
theorem claim10_witness : Act.createdRoot ∈ [Act.createdRoot] :=
  (@claim10_root_never_deleted (fun c => c) 0 [] none [] [Act.createdRoot]
    (by decide) (by decide) rfl).2 rfl
